import Mathlib

/-!
# Verification of the yadi dependency-injection container

Shallow embedding of the Go sources (`container.go`, the `Lazy` helper, and
the package-level wrappers) of the yadi repository.

Modelling conventions:
* `reflect.Type` values become the inductive `Ty`.  The generic struct
  `Lazy[T]` (recognised in the source by `isLazy`: a struct whose name starts
  with `"Lazy["`) becomes the constructor `Ty.lazyOf`.
* Go `any` instance values become `Val`.  The untyped nil interface is
  `Val.nil`; a value produced by a factory is `Val.obj id fields` where `id`
  is a fresh identity (modelling pointer identity) and `fields` are the
  arguments the factory consumed; a `Lazy[T]` handle passed as an argument is
  `Val.lazyV t` (the handle closes over the single container of the model).
* A resolver function is a `Resolver`: its reflected shape (`params` for
  `In(i)`, `outTy` for `Out(0)`, `numOut` for `NumOut()`, `isFunc` for the
  `Kind() == Func` check) plus a deterministic behaviour `FBody`.
* The container state `Container` carries the two-level binding map and
  ghost observation fields: `next` (fresh-identity counter), `calls` (a log
  with one entry per factory execution, recording the resolver id and
  whether the registry's shared read section was held at that moment) and
  `rlock` (whether the shared read section is currently held).
* Recursion in the resolution engine is bounded by explicit fuel; running
  out of fuel yields `Err.fuel` (the sequential rendering of Go's stack
  exhaustion).  A `sync.Mutex.Lock` on a mutex already held by the single
  sequential thread blocks forever; this is rendered as the outcome
  `Err.deadlock`.  Go runtime panics on zero `reflect.Value` (in `Call` and
  in `Set`) are rendered as `Err.panicZero`.
-/

deriving instance DecidableEq for Except

namespace Yadi

/-- Identity of a runtime type (`reflect.Type`).  `lazyOf t` is the struct
`Lazy[t]` from the source's lazy helper. -/
inductive Ty where
  | base : String → Ty
  | lazyOf : Ty → Ty
deriving DecidableEq, Repr

/-- Source `isLazy`: the type is a struct whose name starts with `"Lazy["`. -/
def isLazy : Ty → Bool
  | .lazyOf _ => true
  | .base _ => false

/-- The type argument `T` of a `Lazy[T]` struct type. -/
def lazyArg : Ty → Ty
  | .lazyOf t => t
  | .base s => .base s

/-- A Go `any` value as observed by the container.  `obj id fields` is a
freshly allocated struct (`id` models pointer identity) whose `fields`
component is the first-order encoding of the argument list the factory
consumed (`listNil`/`listCons`). -/
inductive Val where
  | nil : Val
  | listNil : Val
  | listCons : Val → Val → Val
  | obj : Nat → Val → Val
  | lazyV : Ty → Val
deriving DecidableEq, Repr

/-- Encode an argument list as a `Val` (for embedding in `Val.obj`). -/
def vlist : List Val → Val
  | [] => .listNil
  | v :: vs => .listCons v (vlist vs)

/-- Deterministic behaviour of a factory body.  `make` builds a fresh struct
embedding the received arguments (a `return &S{...}` factory); `retNil`
returns the untyped nil interface with a nil error; `fail msg` returns a
non-nil error (meaningful for two-output resolvers). -/
inductive FBody where
  | make : FBody
  | retNil : FBody
  | fail : String → FBody
deriving DecidableEq, Repr

/-- A resolver function: reflected shape plus behaviour.  `rid` is the
identity of the function value (used only by the ghost call log). -/
structure Resolver where
  rid : Nat
  params : List Ty
  outTy : Ty
  numOut : Nat
  isFunc : Bool
  body : FBody
deriving DecidableEq, Repr

/-- Source `binding`: resolver, cached instance (`Val.nil` = Go nil interface,
i.e. no cached instance), singleton flag, and the state of the per-binding
`sync.Mutex` (`locked`). -/
structure Binding where
  resolver : Resolver
  concrete : Val
  singleton : Bool
  locked : Bool
deriving DecidableEq, Repr

/-- Source `Container` plus ghost observation fields (see module comment). -/
structure Container where
  bindings : List (Ty × List (String × Binding))
  next : Nat
  calls : List (Nat × Bool)
  rlock : Bool
deriving DecidableEq, Repr

/-- Source `New`. -/
def New : Container := { bindings := [], next := 0, calls := [], rlock := false }

/-- Source `Clear`. -/
def Clear (c : Container) : Container := { c with bindings := [] }

/-- Lookup in the inner `map[string]*binding`. -/
def lookupInner : List (String × Binding) → String → Option Binding
  | [], _ => none
  | (n, b) :: rest, name => if n = name then some b else lookupInner rest name

/-- Lookup in the outer `map[reflect.Type]map[string]*binding`. -/
def lookupTy : List (Ty × List (String × Binding)) → Ty → Option (List (String × Binding))
  | [], _ => none
  | (t, m) :: rest, ty => if t = ty then some m else lookupTy rest ty

/-- Lookup `c.bindings[t][n]` (both map accesses). -/
def lookupB (c : Container) (t : Ty) (n : String) : Option Binding :=
  match lookupTy c.bindings t with
  | none => none
  | some m => lookupInner m n

/-- Map insert-or-replace on the inner map. -/
def insertInner : List (String × Binding) → String → Binding → List (String × Binding)
  | [], name, b => [(name, b)]
  | (n, b0) :: rest, name, b =>
    if n = name then (n, b) :: rest else (n, b0) :: insertInner rest name b

/-- Map insert-or-replace on the outer map. -/
def insertTy : List (Ty × List (String × Binding)) → Ty → List (String × Binding) →
    List (Ty × List (String × Binding))
  | [], ty, m => [(ty, m)]
  | (t, m0) :: rest, ty, m =>
    if t = ty then (t, m) :: rest else (t, m0) :: insertTy rest ty m

/-- Perform `c.bindings[out] = make(map[string]*binding)` when absent
(`Container.bind`, before validation). -/
def ensureTy (c : Container) (t : Ty) : Container :=
  match lookupTy c.bindings t with
  | some _ => c
  | none => { c with bindings := c.bindings ++ [(t, [])] }

/-- Assignment `c.bindings[t][n] = b` (through both maps). -/
def setBinding (c : Container) (t : Ty) (n : String) (b : Binding) : Container :=
  match lookupTy c.bindings t with
  | some m => { c with bindings := insertTy c.bindings t (insertInner m n b) }
  | none => { c with bindings := c.bindings ++ [(t, [(n, b)])] }

/-- In-place field mutation on the inner map entry named `n`. -/
def mutInner (n : String) (f : Binding → Binding) :
    List (String × Binding) → List (String × Binding)
  | [] => []
  | (n0, b0) :: rest =>
    if n0 = n then (n0, f b0) :: mutInner n f rest
    else (n0, b0) :: mutInner n f rest

/-- In-place field mutation on the outer map entry for `t`. -/
def mutOuter (t : Ty) (n : String) (f : Binding → Binding) :
    List (Ty × List (String × Binding)) → List (Ty × List (String × Binding))
  | [] => []
  | (t0, m0) :: rest =>
    if t0 = t then (t0, mutInner n f m0) :: mutOuter t n f rest
    else (t0, m0) :: mutOuter t n f rest

/-- In-place mutation of the fields of the `*binding` cell at `(t, n)`
(a no-op when the cell is absent) — the rendering of Go's mutation through
the binding pointer. -/
def mutBinding (c : Container) (t : Ty) (n : String) (f : Binding → Binding) : Container :=
  { c with bindings := mutOuter t n f c.bindings }

/-- Errors (and modelled abnormal outcomes, see module comment). -/
inductive Err where
  | notFunc : Err
  | badOutCount : Err
  | selfDep : Err
  | notFound : Ty → String → Err
  | argNotFound : Ty → Err
  | resolverErr : String → Err
  | targetNotPtr : Err
  | panicZero : Err
  | deadlock : Err
  | fuel : Err
deriving DecidableEq, Repr

/-- Ghost: record one factory execution (resolver identity, and whether the
registry's shared read section is held right now). -/
def logCall (c : Container) (rid : Nat) : Container :=
  { c with calls := c.calls ++ [(rid, c.rlock)] }

/-- Execute a factory body on its arguments with the fresh-identity counter. -/
def runBody : FBody → List Val → Nat → Val × Option String × Nat
  | .make, args, n => (.obj n (vlist args), none, n + 1)
  | .retNil, _, n => (.nil, none, n)
  | .fail msg, _, n => (.nil, some msg, n)

/-- Source `Container.resolveArguments`, parameterised by the procedure
`bres` used for the nested `bound.resolve(c)` call.

The branch guarded by `isLazy` is Modelled from the spec: the
deferred-resolution branch of `resolveArguments` is absent from the sources
(only the `Lazy` type, its `isLazy` recogniser and the lazy tests are
present); per spec §4.5, when a parameter type is recognised as
deferred-resolution of `X` the engine does not resolve `X` but passes a
handle bound to the container and `X`. -/
def resolveArgumentsAux (bres : Ty → Container → Except Err Val × Container) :
    List Ty → Container → Except Err (List Val) × Container
  | [], c => (.ok [], c)
  | t :: ts, c =>
    if isLazy t then
      match resolveArgumentsAux bres ts c with
      | (.error e, c1) => (.error e, c1)
      | (.ok vs, c1) => (.ok (Val.lazyV (lazyArg t) :: vs), c1)
    else
      match lookupB c t "" with
      | none => (.error (.argNotFound t), c)
      | some _ =>
        match bres t c with
        | (.error e, c1) => (.error e, c1)
        | (.ok v, c1) =>
          match resolveArgumentsAux bres ts c1 with
          | (.error e, c2) => (.error e, c2)
          | (.ok vs, c2) => (.ok (v :: vs), c2)

/-- Source `Container.callResolver`, parameterised by the nested resolution
procedure.  `reflect.Call` with a zero `reflect.Value` argument (a nil
interface produced by a nested resolution) panics before entering the user
function; the error output is interpreted only for two-output resolvers
(`len(values) == 2`). -/
def callResolverAux (bres : Ty → Container → Except Err Val × Container)
    (r : Resolver) (c : Container) : Except Err Val × Container :=
  match resolveArgumentsAux bres r.params c with
  | (.error e, c1) => (.error e, c1)
  | (.ok args, c1) =>
    if Val.nil ∈ args then (.error .panicZero, c1)
    else
      let c2 := logCall c1 r.rid
      match runBody r.body args c2.next with
      | (v, errOut, n') =>
        let c3 := { c2 with next := n' }
        if r.numOut = 2 then
          match errOut with
          | some msg => (.error (.resolverErr msg), c3)
          | none => (.ok v, c3)
        else (.ok v, c3)

/-- Source `binding.resolve` (the binding designated by its key), with the
fuel-bounded recursion through `callResolver`/`resolveArguments`.  A
singleton binding first takes its mutex (already held → sequential
deadlock), returns the cached instance if non-nil, otherwise constructs,
caches the result and unlocks (the deferred unlock also runs on error
exits).  A transient binding constructs unconditionally. -/
def resolveBinding : Nat → Ty → String → Container → Except Err Val × Container
  | 0, _, _, c => (.error .fuel, c)
  | fuel + 1, t, n, c =>
    match lookupB c t n with
    | none => (.error (.notFound t n), c)
    | some b =>
      if b.singleton then
        if b.locked then (.error .deadlock, c)
        else if b.concrete ≠ Val.nil then (.ok b.concrete, c)
        else
          let cLk := mutBinding c t n (fun b0 => { b0 with locked := true })
          match callResolverAux (fun t' c' => resolveBinding fuel t' "" c') b.resolver cLk with
          | (.error e, c1) =>
            (.error e, mutBinding c1 t n (fun b0 => { b0 with locked := false }))
          | (.ok v, c1) =>
            (.ok v, mutBinding c1 t n (fun b0 => { b0 with concrete := v, locked := false }))
      else
        callResolverAux (fun t' c' => resolveBinding fuel t' "" c') b.resolver c

/-- Source `Container.callResolver` at top level (used by the eager path of
`Container.bind`). -/
def callResolver (fuel : Nat) (r : Resolver) (c : Container) : Except Err Val × Container :=
  callResolverAux (fun t' c' => resolveBinding fuel t' "" c') r c

/-- Source `Container.ResolveNamed`.  The shared read section (`c.lock.RLock`
with deferred `RUnlock`) is held for the whole call.  The target is taken to
be a pointer to `t` (the non-pointer early return `targetNotPtr` is not
exercised by the claims).  `targetValue.Elem().Set(reflect.ValueOf(instance))`
with a nil interface instance panics on the zero `reflect.Value`. -/
def resolveNamed (fuel : Nat) (t : Ty) (n : String) (c : Container) :
    Except Err Val × Container :=
  match lookupB { c with rlock := true } t n with
  | none => (.error (.notFound t n), { c with rlock := false })
  | some _ =>
    match resolveBinding fuel t n { c with rlock := true } with
    | (.error e, c1) => (.error e, { c1 with rlock := false })
    | (.ok v, c1) =>
      if v = Val.nil then (.error .panicZero, { c1 with rlock := false })
      else (.ok v, { c1 with rlock := false })

/-- Source `Container.Resolve`. -/
def resolve (fuel : Nat) (t : Ty) (c : Container) : Except Err Val × Container :=
  resolveNamed fuel t "" c

/-- Source `Lazy[T].Resolve` (from the lazy helper file): the handle calls
`Container.Resolve` on the container it closes over, for its target type. -/
def lazyResolve (fuel : Nat) (t : Ty) (c : Container) : Except Err Val × Container :=
  resolve fuel t c

/-- Source `Container.validateResolverFunction` combined into
`Container.bind`: resolver-kind check, creation of the (possibly empty)
inner map for the output type *before* validation, output-arity check,
self-dependency check, eager construction, and storage of the binding
(a transient binding is stored without the constructed instance). -/
def bindCore (fuel : Nat) (r : Resolver) (name : String)
    (isSingleton isLazyOpt : Bool) (c : Container) : Except Err Unit × Container :=
  if r.isFunc = false then (.error .notFunc, c)
  else
    let c1 := if r.numOut > 0 then ensureTy c r.outTy else c
    if r.numOut = 0 ∨ r.numOut > 2 then (.error .badOutCount, c1)
    else if r.outTy ∈ r.params then (.error .selfDep, c1)
    else if isLazyOpt then
      (.ok (), setBinding c1 r.outTy name
        { resolver := r, concrete := Val.nil, singleton := isSingleton, locked := false })
    else
      match callResolver fuel r c1 with
      | (.error e, c2) => (.error e, c2)
      | (.ok v, c2) =>
        if isSingleton then
          (.ok (), setBinding c2 r.outTy name
            { resolver := r, concrete := v, singleton := true, locked := false })
        else
          (.ok (), setBinding c2 r.outTy name
            { resolver := r, concrete := Val.nil, singleton := false, locked := false })

/-- Source `bindConfig`. -/
structure BindConfig where
  name : String
  singleton : Bool
  lazyOpt : Bool
deriving DecidableEq, Repr

/-- Source `BindOption`. -/
def BindOption : Type := BindConfig → BindConfig

/-- Source `WithName`. -/
def withName (n : String) : BindOption := fun cfg => { cfg with name := n }

/-- Source `WithSingleton`. -/
def withSingleton : BindOption := fun cfg => { cfg with singleton := true }

/-- Source `WithTransient`. -/
def withTransient : BindOption := fun cfg => { cfg with singleton := false }

/-- Source `WithLazy`. -/
def withLazy : BindOption := fun cfg => { cfg with lazyOpt := true }

/-- Source `WithEager`. -/
def withEager : BindOption := fun cfg => { cfg with lazyOpt := false }

/-- The default configuration applied by `Container.Bind`. -/
def defaultConfig : BindConfig := { name := "", singleton := true, lazyOpt := true }

/-- Source `Container.Bind`: apply the default configuration, then the
options in order, then delegate to `bind`. -/
def Bind (fuel : Nat) (r : Resolver) (opts : List BindOption) (c : Container) :
    Except Err Unit × Container :=
  let cfg := opts.foldl (fun acc o => o acc) defaultConfig
  bindCore fuel r cfg.name cfg.singleton cfg.lazyOpt c

/-- The names registered for a type (the key set of the inner map). -/
def namesOf (c : Container) (t : Ty) : List String :=
  match lookupTy c.bindings t with
  | none => []
  | some m => m.map Prod.fst

/-- Resolve each snapshotted binding of the type in turn through the
resolution engine. -/
def resolveAllList : Nat → Ty → List String → Container → Except Err (List Val) × Container
  | _, _, [], c => (.ok [], c)
  | fuel, t, n :: ns, c =>
    match resolveBinding fuel t n c with
    | (.error e, c1) => (.error e, c1)
    | (.ok v, c1) =>
      match resolveAllList fuel t ns c1 with
      | (.error e, c2) => (.error e, c2)
      | (.ok vs, c2) => (.ok (v :: vs), c2)

/-- Modelled from the spec: `Container.ResolveAll` is absent from the
sources (only its test, its README description and the package-level wrapper
delegating to it are present).  Per spec §4.6 it snapshots every binding
registered under the type (every name, including the default) under a
shared read section and then resolves each independently through the
resolution engine, honouring each binding's own singleton/transient
policy. -/
def resolveAll (fuel : Nat) (t : Ty) (c : Container) : Except Err (List Val) × Container :=
  resolveAllList fuel t (namesOf c t) c

/-- Number of executions of the factory with resolver identity `rid` in a
call log. -/
def countRid (rid : Nat) (calls : List (Nat × Bool)) : Nat :=
  (calls.filter (fun p => p.1 = rid)).length

/-- Resolver identities of one inner map. -/
def ridsInner (m : List (String × Binding)) : List Nat :=
  m.map (fun q => q.2.resolver.rid)

/-- All resolver identities registered in the container. -/
def ridsOf (c : Container) : List Nat :=
  c.bindings.foldr (fun p acc => ridsInner p.2 ++ acc) []

/-! ## Lemmas about the registry maps -/

theorem lookupInner_insertInner_self (m : List (String × Binding)) (n : String) (b : Binding) :
    lookupInner (insertInner m n b) n = some b := by
  induction m with
  | nil => simp [insertInner, lookupInner]
  | cons q rest ih =>
    obtain ⟨n0, b0⟩ := q
    by_cases h : n0 = n
    · simp [insertInner, h, lookupInner]
    · simp [insertInner, h, lookupInner, ih]

theorem lookupInner_insertInner_ne (m : List (String × Binding)) (n n' : String) (b : Binding)
    (h : n' ≠ n) : lookupInner (insertInner m n b) n' = lookupInner m n' := by
  induction m with
  | nil => simp [insertInner, lookupInner, Ne.symm h]
  | cons q rest ih =>
    obtain ⟨n0, b0⟩ := q
    by_cases h0 : n0 = n
    · subst h0
      simp [insertInner, lookupInner, Ne.symm h]
    · simp [insertInner, h0, lookupInner, ih]

theorem lookupTy_insertTy_self (l : List (Ty × List (String × Binding))) (t : Ty)
    (m : List (String × Binding)) : lookupTy (insertTy l t m) t = some m := by
  induction l with
  | nil => simp [insertTy, lookupTy]
  | cons p rest ih =>
    obtain ⟨t0, m0⟩ := p
    by_cases h : t0 = t
    · simp [insertTy, h, lookupTy]
    · simp [insertTy, h, lookupTy, ih]

theorem lookupTy_insertTy_ne (l : List (Ty × List (String × Binding))) (t t' : Ty)
    (m : List (String × Binding)) (h : t' ≠ t) :
    lookupTy (insertTy l t m) t' = lookupTy l t' := by
  induction l with
  | nil => simp [insertTy, lookupTy, Ne.symm h]
  | cons p rest ih =>
    obtain ⟨t0, m0⟩ := p
    by_cases h0 : t0 = t
    · subst h0
      simp [insertTy, lookupTy, Ne.symm h]
    · simp [insertTy, h0, lookupTy, ih]

theorem lookupTy_append (l₁ l₂ : List (Ty × List (String × Binding))) (t : Ty) :
    lookupTy (l₁ ++ l₂) t =
      (match lookupTy l₁ t with
       | some m => some m
       | none => lookupTy l₂ t) := by
  induction l₁ with
  | nil => simp [lookupTy]
  | cons p rest ih =>
    obtain ⟨t0, m0⟩ := p
    by_cases h : t0 = t
    · simp [lookupTy, h]
    · simp [lookupTy, h, ih]

theorem lookupB_setBinding_self (c : Container) (t : Ty) (n : String) (b : Binding) :
    lookupB (setBinding c t n b) t n = some b := by
  unfold setBinding lookupB
  cases h : lookupTy c.bindings t with
  | some m =>
    simp [h, lookupTy_insertTy_self, lookupInner_insertInner_self]
  | none =>
    simp [h, lookupTy_append, lookupTy, lookupInner]

theorem lookupB_setBinding_ne (c : Container) (t t' : Ty) (n n' : String) (b : Binding)
    (h : t' ≠ t ∨ n' ≠ n) : lookupB (setBinding c t n b) t' n' = lookupB c t' n' := by
  unfold setBinding lookupB
  cases ht : lookupTy c.bindings t with
  | some m =>
    by_cases htt : t' = t
    · subst htt
      rcases h with h | h
      · exact absurd rfl h
      · simp [lookupTy_insertTy_self, ht, lookupInner_insertInner_ne m n n' b h]
    · simp [lookupTy_insertTy_ne _ _ _ _ htt]
  | none =>
    by_cases htt : t' = t
    · subst htt
      rcases h with h | h
      · exact absurd rfl h
      · simp [lookupTy_append, ht, lookupTy, lookupInner, Ne.symm h]
    · simp [lookupTy_append, ht]
      cases h2 : lookupTy c.bindings t' with
      | some m2 => simp
      | none => simp [lookupTy, Ne.symm htt]

theorem lookupB_ensureTy (c : Container) (t t' : Ty) (n' : String) :
    lookupB (ensureTy c t) t' n' = lookupB c t' n' := by
  unfold ensureTy lookupB
  cases h : lookupTy c.bindings t with
  | some m => simp [h]
  | none =>
    by_cases htt : t' = t
    · subst htt
      simp [lookupTy_append, h, lookupTy, lookupInner]
    · simp [lookupTy_append, h]
      cases h2 : lookupTy c.bindings t' with
      | some m2 => simp
      | none => simp [lookupTy, Ne.symm htt]

theorem lookupInner_mutInner (m : List (String × Binding)) (n n' : String)
    (f : Binding → Binding) :
    lookupInner (mutInner n f m) n' =
      (if n' = n then (lookupInner m n').map f else lookupInner m n') := by
  induction m with
  | nil => by_cases h : n' = n <;> simp [mutInner, lookupInner, h]
  | cons q rest ih =>
    obtain ⟨n0, b0⟩ := q
    by_cases h0 : n0 = n
    · subst h0
      by_cases h1 : n0 = n'
      · subst h1
        simp [mutInner, lookupInner]
      · simp [mutInner, lookupInner, h1, ih, Ne.symm h1]
    · by_cases h1 : n0 = n'
      · subst h1
        simp [mutInner, lookupInner, h0, Ne.symm h0]
      · simp [mutInner, lookupInner, h0, h1, ih]

theorem lookupTy_mutOuter (l : List (Ty × List (String × Binding))) (t t' : Ty) (n : String)
    (f : Binding → Binding) :
    lookupTy (mutOuter t n f l) t' =
      (if t' = t then (lookupTy l t').map (mutInner n f) else lookupTy l t') := by
  induction l with
  | nil => by_cases h : t' = t <;> simp [mutOuter, lookupTy, h]
  | cons p rest ih =>
    obtain ⟨t0, m0⟩ := p
    by_cases h0 : t0 = t
    · subst h0
      by_cases h1 : t0 = t'
      · subst h1
        simp [mutOuter, lookupTy]
      · simp [mutOuter, lookupTy, h1, ih, Ne.symm h1]
    · by_cases h1 : t0 = t'
      · subst h1
        simp [mutOuter, lookupTy, h0, Ne.symm h0]
      · simp [mutOuter, lookupTy, h0, h1, ih]

theorem lookupB_mutBinding_self (c : Container) (t : Ty) (n : String) (f : Binding → Binding) :
    lookupB (mutBinding c t n f) t n = (lookupB c t n).map f := by
  unfold mutBinding lookupB
  rw [show (Container.mk (mutOuter t n f c.bindings) c.next c.calls c.rlock).bindings =
      mutOuter t n f c.bindings from rfl]
  rw [lookupTy_mutOuter]
  simp only [if_pos rfl]
  cases h : lookupTy c.bindings t with
  | none => simp
  | some m => simp [lookupInner_mutInner]

theorem lookupB_mutBinding_ne (c : Container) (t t' : Ty) (n n' : String)
    (f : Binding → Binding) (h : t' ≠ t ∨ n' ≠ n) :
    lookupB (mutBinding c t n f) t' n' = lookupB c t' n' := by
  unfold mutBinding lookupB
  rw [show (Container.mk (mutOuter t n f c.bindings) c.next c.calls c.rlock).bindings =
      mutOuter t n f c.bindings from rfl]
  rw [lookupTy_mutOuter]
  by_cases htt : t' = t
  · subst htt
    rcases h with h | h
    · exact absurd rfl h
    · simp only [if_pos rfl]
      cases h2 : lookupTy c.bindings t' with
      | none => simp
      | some m => simp [lookupInner_mutInner, h]
  · simp [htt]

theorem mutBinding_calls (c : Container) (t : Ty) (n : String) (f : Binding → Binding) :
    (mutBinding c t n f).calls = c.calls := rfl

theorem mutBinding_rlock (c : Container) (t : Ty) (n : String) (f : Binding → Binding) :
    (mutBinding c t n f).rlock = c.rlock := rfl

theorem mutBinding_next (c : Container) (t : Ty) (n : String) (f : Binding → Binding) :
    (mutBinding c t n f).next = c.next := rfl

theorem logCall_bindings (c : Container) (rid : Nat) :
    (logCall c rid).bindings = c.bindings := rfl

theorem ensureTy_calls (c : Container) (t : Ty) : (ensureTy c t).calls = c.calls := by
  unfold ensureTy
  cases lookupTy c.bindings t <;> rfl

theorem ensureTy_rlock (c : Container) (t : Ty) : (ensureTy c t).rlock = c.rlock := by
  unfold ensureTy
  cases lookupTy c.bindings t <;> rfl

theorem setBinding_calls (c : Container) (t : Ty) (n : String) (b : Binding) :
    (setBinding c t n b).calls = c.calls := by
  unfold setBinding
  cases lookupTy c.bindings t <;> rfl

theorem setBinding_rlock (c : Container) (t : Ty) (n : String) (b : Binding) :
    (setBinding c t n b).rlock = c.rlock := by
  unfold setBinding
  cases lookupTy c.bindings t <;> rfl

/-! ## Shape of a resolution step

Resolution never adds or removes registry entries, never replaces a
binding's resolver or lifecycle flag, never toggles the shared read
section, and only appends to the call log entries whose shared-section
flag is the one in force and whose resolver identity is registered. -/

/-- The immutable part of a binding during resolution. -/
def binfo (b : Binding) : Resolver × Bool := (b.resolver, b.singleton)

/-- Relation between the container before and after any step of the
resolution engine. -/
def Shape (c c' : Container) : Prop :=
  c'.rlock = c.rlock ∧
  (∀ t n, (lookupB c' t n).map binfo = (lookupB c t n).map binfo) ∧
  ridsOf c' = ridsOf c ∧
  ∃ new, c'.calls = c.calls ++ new ∧ ∀ p ∈ new, p.2 = c.rlock ∧ p.1 ∈ ridsOf c

theorem Shape.refl (c : Container) : Shape c c :=
  ⟨rfl, fun _ _ => rfl, rfl, [], by simp, by simp⟩

theorem Shape.trans {c₀ c₁ c₂ : Container} (h1 : Shape c₀ c₁) (h2 : Shape c₁ c₂) :
    Shape c₀ c₂ := by
  obtain ⟨hr1, hl1, hrid1, new1, hc1, hp1⟩ := h1
  obtain ⟨hr2, hl2, hrid2, new2, hc2, hp2⟩ := h2
  refine ⟨hr2.trans hr1, fun t n => (hl2 t n).trans (hl1 t n), hrid2.trans hrid1,
    new1 ++ new2, ?_, ?_⟩
  · rw [hc2, hc1, List.append_assoc]
  · intro p hp
    rcases List.mem_append.mp hp with hp | hp
    · exact hp1 p hp
    · obtain ⟨h2a, h2b⟩ := hp2 p hp
      exact ⟨h2a.trans hr1, hrid1 ▸ h2b⟩

theorem lookupTy_mem {l : List (Ty × List (String × Binding))} {t : Ty}
    {m : List (String × Binding)} (h : lookupTy l t = some m) : (t, m) ∈ l := by
  induction l with
  | nil => simp [lookupTy] at h
  | cons p rest ih =>
    obtain ⟨t0, m0⟩ := p
    by_cases h0 : t0 = t
    · subst h0
      simp [lookupTy] at h
      simp [h]
    · simp [lookupTy, h0] at h
      exact List.mem_cons_of_mem _ (ih h)

theorem lookupInner_mem {m : List (String × Binding)} {n : String} {b : Binding}
    (h : lookupInner m n = some b) : (n, b) ∈ m := by
  induction m with
  | nil => simp [lookupInner] at h
  | cons q rest ih =>
    obtain ⟨n0, b0⟩ := q
    by_cases h0 : n0 = n
    · subst h0
      simp [lookupInner] at h
      simp [h]
    · simp [lookupInner, h0] at h
      exact List.mem_cons_of_mem _ (ih h)

theorem mem_foldr_rids {l : List (Ty × List (String × Binding))}
    {t : Ty} {m : List (String × Binding)} {x : Nat}
    (hmem : (t, m) ∈ l) (hx : x ∈ ridsInner m) :
    x ∈ l.foldr (fun p acc => ridsInner p.2 ++ acc) [] := by
  induction l with
  | nil => simp at hmem
  | cons p rest ih =>
    rcases List.mem_cons.mp hmem with hp | hp
    · rw [← hp]
      simp [List.mem_append]
      exact Or.inl hx
    · simp [List.mem_append]
      exact Or.inr (ih hp)

theorem mem_ridsOf_of_lookupB {c : Container} {t : Ty} {n : String} {b : Binding}
    (h : lookupB c t n = some b) : b.resolver.rid ∈ ridsOf c := by
  unfold lookupB at h
  cases hty : lookupTy c.bindings t with
  | none => rw [hty] at h; exact absurd h (by simp)
  | some m =>
    rw [hty] at h
    have hmem : (t, m) ∈ c.bindings := lookupTy_mem hty
    have hbm : (n, b) ∈ m := lookupInner_mem h
    have hrid : b.resolver.rid ∈ ridsInner m := by
      unfold ridsInner
      exact List.mem_map.mpr ⟨(n, b), hbm, rfl⟩
    exact mem_foldr_rids hmem hrid

theorem ridsInner_mutInner (m : List (String × Binding)) (n : String)
    (f : Binding → Binding) (hf : ∀ b, (f b).resolver = b.resolver) :
    ridsInner (mutInner n f m) = ridsInner m := by
  induction m with
  | nil => rfl
  | cons q rest ih =>
    obtain ⟨n0, b0⟩ := q
    by_cases h0 : n0 = n
    · simp [mutInner, h0, ridsInner, hf] at ih ⊢
      simpa [ridsInner] using ih
    · simp [mutInner, h0, ridsInner] at ih ⊢
      simpa [ridsInner] using ih

theorem ridsOf_mutBinding (c : Container) (t : Ty) (n : String) (f : Binding → Binding)
    (hf : ∀ b, (f b).resolver = b.resolver) :
    ridsOf (mutBinding c t n f) = ridsOf c := by
  unfold mutBinding ridsOf
  rw [show (Container.mk (mutOuter t n f c.bindings) c.next c.calls c.rlock).bindings =
      mutOuter t n f c.bindings from rfl]
  induction c.bindings with
  | nil => rfl
  | cons p rest ih =>
    obtain ⟨t0, m0⟩ := p
    by_cases h0 : t0 = t
    · simp [mutOuter, h0, ridsInner_mutInner m0 n f hf, ih]
    · simp [mutOuter, h0, ih]

theorem shape_logCall (c : Container) (rid : Nat) (h : rid ∈ ridsOf c) :
    Shape c (logCall c rid) := by
  refine ⟨rfl, fun _ _ => rfl, rfl, [(rid, c.rlock)], rfl, ?_⟩
  intro p hp
  simp at hp
  subst hp
  exact ⟨rfl, h⟩

theorem shape_setNext (c : Container) (n' : Nat) : Shape c { c with next := n' } :=
  ⟨rfl, fun _ _ => rfl, rfl, [], by simp, by simp⟩

theorem shape_mutBinding (c : Container) (t : Ty) (n : String) (f : Binding → Binding)
    (hf : ∀ b, (f b).resolver = b.resolver) (hs : ∀ b, (f b).singleton = b.singleton) :
    Shape c (mutBinding c t n f) := by
  refine ⟨mutBinding_rlock c t n f, ?_, ridsOf_mutBinding c t n f hf, [], ?_, by simp⟩
  · intro t' n'
    by_cases ht : t' = t
    · subst ht
      by_cases hn : n' = n
      · subst hn
        rw [lookupB_mutBinding_self]
        cases lookupB c t' n' with
        | none => rfl
        | some b => simp [binfo, hf, hs]
      · rw [lookupB_mutBinding_ne c t' t' n n' f (Or.inr hn)]
    · rw [lookupB_mutBinding_ne c t t' n n' f (Or.inl ht)]
  · simp [mutBinding_calls]

theorem shape_resolveArgumentsAux (bres : Ty → Container → Except Err Val × Container)
    (hb : ∀ t c, Shape c (bres t c).2) :
    ∀ (ts : List Ty) (c : Container), Shape c (resolveArgumentsAux bres ts c).2 := by
  intro ts
  induction ts with
  | nil => intro c; exact Shape.refl c
  | cons t rest ih =>
    intro c
    unfold resolveArgumentsAux
    cases hl : isLazy t with
    | true =>
      simp only [if_pos rfl]
      rcases h1 : resolveArgumentsAux bres rest c with ⟨res, c1⟩
      have hs : Shape c c1 := by have := ih c; rwa [h1] at this
      cases res <;> simpa using hs
    | false =>
      simp only [Bool.false_eq_true, if_false]
      cases h0 : lookupB c t "" with
      | none => exact Shape.refl c
      | some b =>
        simp only []
        rcases h1 : bres t c with ⟨res, c1⟩
        have hs1 : Shape c c1 := by have := hb t c; rwa [h1] at this
        cases res with
        | error e => simpa using hs1
        | ok v =>
          simp only []
          rcases h2 : resolveArgumentsAux bres rest c1 with ⟨res2, c2⟩
          have hs2 : Shape c1 c2 := by have := ih c1; rwa [h2] at this
          cases res2 <;> simpa using hs1.trans hs2

theorem shape_callResolverAux (bres : Ty → Container → Except Err Val × Container)
    (hb : ∀ t c, Shape c (bres t c).2) (r : Resolver) (c : Container)
    (hr : r.rid ∈ ridsOf c) : Shape c (callResolverAux bres r c).2 := by
  unfold callResolverAux
  rcases h1 : resolveArgumentsAux bres r.params c with ⟨res, c1⟩
  have hargs : Shape c c1 := by
    have := shape_resolveArgumentsAux bres hb r.params c
    rwa [h1] at this
  cases res with
  | error e => simpa using hargs
  | ok args =>
    simp only []
    by_cases hnil : Val.nil ∈ args
    · simp only [if_pos hnil]
      exact hargs
    · simp only [if_neg hnil]
      have hlog : Shape c1 (logCall c1 r.rid) := by
        refine shape_logCall c1 r.rid ?_
        have : ridsOf c1 = ridsOf c := hargs.2.2.1
        rw [this]; exact hr
      rcases h2 : runBody r.body args (logCall c1 r.rid).next with ⟨v, errOut, n'⟩
      have hfin : Shape c ({ logCall c1 r.rid with next := n' }) :=
        (hargs.trans hlog).trans (shape_setNext _ n')
      simp only [h2]
      by_cases hout : r.numOut = 2
      · simp only [if_pos hout]
        cases errOut <;> simpa using hfin
      · simp only [if_neg hout]
        simpa using hfin

theorem shape_resolveBinding : ∀ (fuel : Nat) (t : Ty) (n : String) (c : Container),
    Shape c (resolveBinding fuel t n c).2 := by
  intro fuel
  induction fuel with
  | zero => intro t n c; exact Shape.refl c
  | succ f ih =>
    intro t n c
    unfold resolveBinding
    cases hb : lookupB c t n with
    | none => exact Shape.refl c
    | some b =>
      simp only []
      by_cases hsing : b.singleton
      · simp only [if_pos hsing]
        by_cases hlk : b.locked
        · simp only [if_pos hlk]
          exact Shape.refl c
        · simp only [if_neg hlk]
          by_cases hcon : b.concrete ≠ Val.nil
          · simp only [if_pos hcon]
            exact Shape.refl c
          · simp only [if_neg hcon]
            have hmut1 : Shape c (mutBinding c t n (fun b0 => { b0 with locked := true })) :=
              shape_mutBinding c t n _ (fun b0 => rfl) (fun b0 => rfl)
            set cLk := mutBinding c t n (fun b0 => { b0 with locked := true }) with hcLk
            have hrid : b.resolver.rid ∈ ridsOf cLk := by
              have hsame : ridsOf cLk = ridsOf c := hmut1.2.2.1
              rw [hsame]
              exact mem_ridsOf_of_lookupB hb
            rcases h2 : callResolverAux (fun t' c' => resolveBinding f t' "" c')
                b.resolver cLk with ⟨res, c1⟩
            have h2s : Shape cLk c1 := by
              have := shape_callResolverAux _ (fun t' c' => ih t' "" c') b.resolver cLk hrid
              rwa [h2] at this
            cases res with
            | error e =>
              simp only []
              exact (hmut1.trans h2s).trans
                (shape_mutBinding c1 t n _ (fun b0 => rfl) (fun b0 => rfl))
            | ok v =>
              simp only []
              exact (hmut1.trans h2s).trans
                (shape_mutBinding c1 t n _ (fun b0 => rfl) (fun b0 => rfl))
      · simp only [if_neg hsing]
        have hrid : b.resolver.rid ∈ ridsOf c := mem_ridsOf_of_lookupB hb
        exact shape_callResolverAux _ (fun t' c' => ih t' "" c') b.resolver c hrid

/-! ## Computation lemmas for the resolution engine -/

theorem rlock_roundtrip (c : Container) (h : c.rlock = false) :
    ({ c with rlock := false } : Container) = c := by
  cases c
  simp_all

theorem countRid_append (rid : Nat) (l₁ l₂ : List (Nat × Bool)) :
    countRid rid (l₁ ++ l₂) = countRid rid l₁ + countRid rid l₂ := by
  unfold countRid
  rw [List.filter_append, List.length_append]

theorem countRid_eq_of_not_mem (rid : Nat) (l : List (Nat × Bool))
    (h : ∀ p ∈ l, p.1 ≠ rid) : countRid rid l = 0 := by
  unfold countRid
  rw [List.filter_eq_nil_iff.mpr]
  · rfl
  · intro p hp
    simp [h p hp]

theorem resolveBinding_cached (f : Nat) (t : Ty) (n : String) (c : Container) (b : Binding)
    (hb : lookupB c t n = some b) (hs : b.singleton = true) (hl : b.locked = false)
    (hc : b.concrete ≠ Val.nil) :
    resolveBinding (f + 1) t n c = (.ok b.concrete, c) := by
  simp only [resolveBinding]
  rw [hb]
  simp [hs, hl, hc]

theorem resolveBinding_construct (f : Nat) (t : Ty) (n : String) (c : Container) (b : Binding)
    (hb : lookupB c t n = some b) (hs : b.singleton = true) (hl : b.locked = false)
    (hc : b.concrete = Val.nil) :
    resolveBinding (f + 1) t n c =
      (match callResolverAux (fun t' c' => resolveBinding f t' "" c') b.resolver
          (mutBinding c t n (fun b0 => { b0 with locked := true })) with
       | (.error e, c1) =>
         (.error e, mutBinding c1 t n (fun b0 => { b0 with locked := false }))
       | (.ok v, c1) =>
         (.ok v, mutBinding c1 t n (fun b0 => { b0 with concrete := v, locked := false }))) := by
  simp only [resolveBinding]
  rw [hb]
  simp [hs, hl, hc]

theorem resolveBinding_transient (f : Nat) (t : Ty) (n : String) (c : Container) (b : Binding)
    (hb : lookupB c t n = some b) (hs : b.singleton = false) :
    resolveBinding (f + 1) t n c =
      callResolverAux (fun t' c' => resolveBinding f t' "" c') b.resolver c := by
  simp only [resolveBinding]
  rw [hb]
  simp [hs]

theorem callResolverAux_leaf (bres : Ty → Container → Except Err Val × Container)
    (r : Resolver) (c : Container) (hp : r.params = []) (h1 : r.numOut = 1) :
    callResolverAux bres r c =
      (match runBody r.body [] (logCall c r.rid).next with
       | (v, _, n') => (.ok v, { logCall c r.rid with next := n' })) := by
  unfold callResolverAux
  rw [hp]
  simp only [resolveArgumentsAux]
  simp [h1]

theorem resolveNamed_state (fuel : Nat) (t : Ty) (n : String) (c : Container) :
    ∃ c1, Shape { c with rlock := true } c1 ∧
      (resolveNamed fuel t n c).2 = { c1 with rlock := false } := by
  unfold resolveNamed
  cases h0 : lookupB { c with rlock := true } t n with
  | none =>
    refine ⟨{ c with rlock := true }, Shape.refl _, ?_⟩
    simp [h0]
  | some b =>
    rcases h1 : resolveBinding fuel t n { c with rlock := true } with ⟨res, c1⟩
    have hs : Shape { c with rlock := true } c1 := by
      have := shape_resolveBinding fuel t n { c with rlock := true }
      rwa [h1] at this
    cases res with
    | error e => exact ⟨c1, hs, by simp [h0, h1]⟩
    | ok v =>
      by_cases hv : v = Val.nil
      · exact ⟨c1, hs, by simp [h0, h1, hv]⟩
      · exact ⟨c1, hs, by simp [h0, h1, hv]⟩

/-- One resolution step of a singleton binding whose factory takes no
parameters and returns the nil interface with a nil error: the factory runs,
the nil result is returned, and the binding cell is left exactly as it was
(the nil result is not cached, because the cache-hit test is
`b.concrete != nil`). -/
theorem retNil_singleton_step (f : Nat) (c : Container) (t : Ty) (b : Binding) (rid : Nat)
    (hb : lookupB c t "" = some b) (hsing : b.singleton = true) (hlk : b.locked = false)
    (hcon : b.concrete = Val.nil)
    (hres : b.resolver =
      { rid := rid, params := [], outTy := t, numOut := 1, isFunc := true,
        body := FBody.retNil }) :
    ∃ c1, resolveBinding (f + 1) t "" c = (.ok Val.nil, c1) ∧
      lookupB c1 t "" = some b ∧
      c1.calls = c.calls ++ [(rid, c.rlock)] ∧ c1.rlock = c.rlock := by
  rw [resolveBinding_construct f t "" c b hb hsing hlk hcon]
  rw [callResolverAux_leaf _ b.resolver _ (by rw [hres]) (by rw [hres])]
  rw [hres]
  simp only [runBody]
  refine ⟨_, rfl, ?_, ?_, ?_⟩
  · rw [lookupB_mutBinding_self]
    have : lookupB (logCall (mutBinding c t ""
        (fun b0 => { b0 with locked := true })) rid) t "" =
        lookupB (mutBinding c t "" (fun b0 => { b0 with locked := true })) t "" := rfl
    rw [this, lookupB_mutBinding_self, hb]
    cases b with
    | mk res conc sing lck =>
      have hcon' : conc = Val.nil := hcon
      have hlk' : lck = false := hlk
      subst hcon'
      subst hlk'
      rfl
  · simp [logCall, mutBinding_calls, mutBinding_rlock]
  · simp [logCall, mutBinding_rlock]

/-! ## Concrete fixtures -/

/-- A factory with no parameters returning a fresh instance of `t`. -/
def leafMake (rid : Nat) (t : Ty) : Resolver :=
  { rid := rid, params := [], outTy := t, numOut := 1, isFunc := true, body := .make }

/-- A factory consuming `pt` and returning a fresh instance of `t`. -/
def depMake (rid : Nat) (pt t : Ty) : Resolver :=
  { rid := rid, params := [pt], outTy := t, numOut := 1, isFunc := true, body := .make }

/-- A factory with no parameters returning the nil interface and a nil
error. -/
def leafNil (rid : Nat) (t : Ty) : Resolver :=
  { rid := rid, params := [], outTy := t, numOut := 1, isFunc := true, body := .retNil }

def tyDb : Ty := .base "Database"
def tyUs : Ty := .base "UserService"
def tyOs : Ty := .base "OrderService"

/-! ## Claim C10 -/

/-- C10, counterexample: the claim says the construction step is never
executed while holding the registry's shared read section.  In the concrete
container below, resolving the (lazily bound, hence yet unconstructed)
default `Database` binding executes its factory, and the single call-log
entry carries flag `true`: the shared read section (taken by `ResolveNamed`
and released only when it returns) was held during the construction. -/
theorem C10_counterexample :
    (resolve 2 tyDb (Bind 1 (leafMake 0 tyDb) [] New).2).2.calls = [(0, true)] ∧
    (resolve 2 tyDb (Bind 1 (leafMake 0 tyDb) [] New).2).1 = .ok (Val.obj 0 Val.listNil) := by
  constructor <;> rfl

/-- C10 (amended): during `Resolve`/`ResolveNamed` the shared read section
is held for the entire call, so every factory execution it performs — the
registry lookup *and* the construction — happens while the shared section is
held: every call-log entry appended by `resolveNamed` has its
read-section-held flag set. -/
theorem C10_construction_inside_read_section (fuel : Nat) (t : Ty) (n : String) (c : Container) :
    (resolveNamed fuel t n c).2.calls =
      c.calls ++ ((resolveNamed fuel t n c).2.calls.drop c.calls.length) ∧
    ((resolveNamed fuel t n c).2.calls.drop c.calls.length).all (fun p => p.2) = true := by
  obtain ⟨c1, hs, h2⟩ := resolveNamed_state fuel t n c
  obtain ⟨-, -, -, new, hcalls, hflags⟩ := hs
  have hc : (resolveNamed fuel t n c).2.calls = c.calls ++ new := by
    rw [h2]
    simpa using hcalls
  have hdrop : (resolveNamed fuel t n c).2.calls.drop c.calls.length = new := by
    rw [hc]
    exact List.drop_left c.calls new
  constructor
  · rw [hdrop, hc]
  · rw [hdrop, List.all_eq_true]
    intro p hp
    have := (hflags p hp).1
    simpa using this

/-! ## Claim C8 -/

/-- C8: `ResolveNamed` with a name that has no binding for the target's type
fails with the not-found error naming both the missing type and the
requested name, even when a default (`""`) binding of the same type exists;
the container is returned unchanged (the default binding is not consulted,
no factory runs, and the target is not written). -/
theorem C8_named_isolation (fuel : Nat) (c : Container) (t : Ty) (n : String) (bd : Binding)
    (hrl : c.rlock = false) (_hdef : lookupB c t "" = some bd)
    (hmiss : lookupB c t n = none) :
    resolveNamed fuel t n c = (.error (.notFound t n), c) := by
  unfold resolveNamed
  rw [show lookupB { c with rlock := true } t n = lookupB c t n from rfl, hmiss]
  rw [rlock_roundtrip c hrl]

/-- Witness for C8 at a concrete container holding only a default
`Database` binding. -/
theorem C8_named_isolation_witness :
    resolveNamed 3 tyDb "missing" (Bind 1 (leafMake 0 tyDb) [] New).2 =
      (.error (.notFound tyDb "missing"), (Bind 1 (leafMake 0 tyDb) [] New).2) :=
  C8_named_isolation 3 (Bind 1 (leafMake 0 tyDb) [] New).2 tyDb "missing"
    { resolver := leafMake 0 tyDb, concrete := Val.nil, singleton := true, locked := false }
    rfl rfl rfl

/-! ## Claim C9 -/

/-- C9: a singleton binding whose factory returns a nil instance with a nil
error never caches the nil result (the cache-hit test is
`b.concrete != nil`), so a second sequential resolution of the binding
invokes the factory again: the factory of a singleton binding can execute
more than once even sequentially. -/
theorem C9_nil_result_never_cached (f f2 : Nat) (c : Container) (t : Ty) (b : Binding)
    (rid : Nat) (hb : lookupB c t "" = some b) (hsing : b.singleton = true)
    (hlk : b.locked = false) (hcon : b.concrete = Val.nil)
    (hres : b.resolver =
      { rid := rid, params := [], outTy := t, numOut := 1, isFunc := true,
        body := FBody.retNil }) :
    ∃ c1 c2, resolveBinding (f + 1) t "" c = (.ok Val.nil, c1) ∧
      lookupB c1 t "" = some b ∧
      resolveBinding (f2 + 1) t "" c1 = (.ok Val.nil, c2) ∧
      countRid rid c2.calls = countRid rid c.calls + 2 := by
  obtain ⟨c1, hstep1, hlook1, hcalls1, hrl1⟩ :=
    retNil_singleton_step f c t b rid hb hsing hlk hcon hres
  obtain ⟨c2, hstep2, hlook2, hcalls2, hrl2⟩ :=
    retNil_singleton_step f2 c1 t b rid hlook1 hsing hlk hcon hres
  refine ⟨c1, c2, hstep1, hlook1, hstep2, ?_⟩
  rw [hcalls2, hcalls1]
  simp [countRid_append, countRid]

/-- Witness for C9 on a concrete nil-returning singleton binding. -/
theorem C9_nil_result_never_cached_witness :
    ∃ c1 c2, resolveBinding 3 tyDb "" (Bind 1 (leafNil 7 tyDb) [] New).2 = (.ok Val.nil, c1) ∧
      lookupB c1 tyDb "" = some
        { resolver := leafNil 7 tyDb, concrete := Val.nil, singleton := true, locked := false } ∧
      resolveBinding 4 tyDb "" c1 = (.ok Val.nil, c2) ∧
      countRid 7 c2.calls = countRid 7 (Bind 1 (leafNil 7 tyDb) [] New).2.calls + 2 :=
  C9_nil_result_never_cached 2 3 (Bind 1 (leafNil 7 tyDb) [] New).2 tyDb
    { resolver := leafNil 7 tyDb, concrete := Val.nil, singleton := true, locked := false }
    7 rfl rfl rfl rfl rfl

/-! ## Claim C4 -/

/-- C4, counterexample: the claim says a self-dependent registration leaves
the container's registry *exactly* unchanged (zero side effects).  On the
empty container, a self-dependent registration is rejected with the
self-dependency error, yet the registry is changed: `Container.bind` creates
an empty name-table for the factory's output type *before* validation, so
the resulting container differs from the initial one. -/
theorem C4_counterexample :
    (Bind 1 (depMake 0 tyDb tyDb) [] New).1 = .error .selfDep ∧
    (Bind 1 (depMake 0 tyDb tyDb) [] New).2 ≠ New := by
  constructor
  · rfl
  · decide

/-- C4 (amended): a factory whose parameter list contains its own declared
primary output type is rejected at registration with the self-dependency
error and no binding is stored — every registry lookup is unchanged — but
the registry representation is not exactly unchanged: an empty name-table
for the output type is created (when absent) before validation runs. -/
theorem C4_selfdep_rejected (fuel : Nat) (r : Resolver) (opts : List BindOption) (c : Container)
    (hf : r.isFunc = true) (h1 : 1 ≤ r.numOut) (h2 : r.numOut ≤ 2)
    (hself : r.outTy ∈ r.params) :
    Bind fuel r opts c = (.error .selfDep, ensureTy c r.outTy) ∧
    ∀ t' n', lookupB (ensureTy c r.outTy) t' n' = lookupB c t' n' := by
  constructor
  · unfold Bind bindCore
    have h0 : ¬(r.numOut = 0 ∨ r.numOut > 2) := by omega
    simp [hf, h0, hself, Nat.lt_of_lt_of_le Nat.zero_lt_one h1]
  · intro t' n'
    exact lookupB_ensureTy c r.outTy t' n'

/-- Witness for C4 (amended) on the empty container. -/
theorem C4_selfdep_rejected_witness :
    Bind 1 (depMake 0 tyDb tyDb) [] New = (.error .selfDep, ensureTy New tyDb) :=
  (C4_selfdep_rejected 1 (depMake 0 tyDb tyDb) [] New rfl (by decide) (by decide)
    (by decide)).1

/-! ## Further computation lemmas for `resolveBinding` -/

theorem resolveBinding_zero (t : Ty) (n : String) (c : Container) :
    resolveBinding 0 t n c = (.error .fuel, c) := rfl

theorem resolveBinding_notFound (f : Nat) (t : Ty) (n : String) (c : Container)
    (h : lookupB c t n = none) :
    resolveBinding (f + 1) t n c = (.error (.notFound t n), c) := by
  simp only [resolveBinding]
  rw [h]

theorem resolveBinding_deadlock (f : Nat) (t : Ty) (n : String) (c : Container) (b : Binding)
    (hb : lookupB c t n = some b) (hs : b.singleton = true) (hl : b.locked = true) :
    resolveBinding (f + 1) t n c = (.error .deadlock, c) := by
  simp only [resolveBinding]
  rw [hb]
  simp [hs, hl]

/-! ## The per-binding mutex shields a held singleton binding

While the construction guard of a singleton binding is held (its mutex
`locked`), no nested resolution step can execute that binding's factory: a
re-entrant resolution of the held binding ends in the modelled sequential
deadlock, which aborts the whole resolution.  Consequently a successful
nested step leaves the held binding's factory-execution count unchanged. -/

/-- The binding registered at `(k, "")` is singleton, its construction guard
is held, its resolver identity is `rid`, and no *other* default-name binding
has resolver identity `rid`. -/
def KeyHeld (k : Ty) (rid : Nat) (c : Container) : Prop :=
  (∃ bk, lookupB c k "" = some bk ∧ bk.locked = true ∧ bk.singleton = true ∧
    bk.resolver.rid = rid) ∧
  (∀ t' b', t' ≠ k → lookupB c t' "" = some b' → b'.resolver.rid ≠ rid)

theorem keyHeld_logCall (k : Ty) (rid : Nat) (c : Container) (x : Nat)
    (h : KeyHeld k rid c) : KeyHeld k rid (logCall c x) := h

theorem keyHeld_setNext (k : Ty) (rid : Nat) (c : Container) (x : Nat)
    (h : KeyHeld k rid c) : KeyHeld k rid { c with next := x } := h

theorem keyHeld_mutBinding_ne (k : Ty) (rid : Nat) (c : Container) (t : Ty)
    (f : Binding → Binding) (hf : ∀ b, (f b).resolver = b.resolver)
    (ht : t ≠ k) (h : KeyHeld k rid c) : KeyHeld k rid (mutBinding c t "" f) := by
  obtain ⟨⟨bk, hbk, h1, h2, h3⟩, huniq⟩ := h
  constructor
  · refine ⟨bk, ?_, h1, h2, h3⟩
    rw [lookupB_mutBinding_ne c t k "" "" f (Or.inl (Ne.symm ht))]
    exact hbk
  · intro t' b' ht' hb'
    by_cases htt : t' = t
    · subst htt
      rw [lookupB_mutBinding_self] at hb'
      cases hb0 : lookupB c t' "" with
      | none => rw [hb0] at hb'; exact absurd hb' (by simp)
      | some b0 =>
        rw [hb0] at hb'
        simp only [Option.map] at hb'
        have hb'' : f b0 = b' := by injection hb'
        rw [← hb'', hf b0]
        exact huniq t' b0 ht' hb0
    · rw [lookupB_mutBinding_ne c t t' "" "" f (Or.inl htt)] at hb'
      exact huniq t' b' ht' hb'

theorem countRid_single (rid x : Nat) (fl : Bool) :
    countRid rid [(x, fl)] = if x = rid then 1 else 0 := by
  by_cases h : x = rid <;> simp [countRid, h]

theorem argsShield (k : Ty) (rid : Nat) (bres : Ty → Container → Except Err Val × Container)
    (hb : ∀ t c v c', KeyHeld k rid c → bres t c = (.ok v, c') →
      KeyHeld k rid c' ∧ countRid rid c'.calls = countRid rid c.calls) :
    ∀ (ts : List Ty) (c : Container) (vs : List Val) (c' : Container),
      KeyHeld k rid c → resolveArgumentsAux bres ts c = (.ok vs, c') →
      KeyHeld k rid c' ∧ countRid rid c'.calls = countRid rid c.calls := by
  intro ts
  induction ts with
  | nil =>
    intro c vs c' hk hstep
    simp only [resolveArgumentsAux, Prod.mk.injEq, Except.ok.injEq] at hstep
    rw [← hstep.2]
    exact ⟨hk, rfl⟩
  | cons t rest ih =>
    intro c vs c' hk hstep
    simp only [resolveArgumentsAux] at hstep
    by_cases hl : isLazy t = true
    · rw [if_pos hl] at hstep
      rcases h1 : resolveArgumentsAux bres rest c with ⟨res1, c1⟩
      rw [h1] at hstep
      cases res1 with
      | error e => simp at hstep
      | ok vs1 =>
        simp only [Prod.mk.injEq, Except.ok.injEq] at hstep
        rw [← hstep.2]
        exact ih c vs1 c1 hk h1
    · rw [if_neg hl] at hstep
      cases hlook : lookupB c t "" with
      | none => rw [hlook] at hstep; simp at hstep
      | some b =>
        rw [hlook] at hstep
        rcases h1 : bres t c with ⟨res1, c1⟩
        rw [h1] at hstep
        simp only [] at hstep
        cases res1 with
        | error e => simp at hstep
        | ok v1 =>
          simp only [] at hstep
          rcases h2 : resolveArgumentsAux bres rest c1 with ⟨res2, c2⟩
          rw [h2] at hstep
          cases res2 with
          | error e => simp at hstep
          | ok vs2 =>
            simp only [Prod.mk.injEq, Except.ok.injEq] at hstep
            rw [← hstep.2]
            have step1 := hb t c v1 c1 hk h1
            have step2 := ih c1 vs2 c2 step1.1 h2
            exact ⟨step2.1, step2.2.trans step1.2⟩

theorem callShield (k : Ty) (rid : Nat) (bres : Ty → Container → Except Err Val × Container)
    (hb : ∀ t c v c', KeyHeld k rid c → bres t c = (.ok v, c') →
      KeyHeld k rid c' ∧ countRid rid c'.calls = countRid rid c.calls) (r : Resolver) :
    ∀ (c : Container) (v : Val) (c' : Container),
      KeyHeld k rid c → callResolverAux bres r c = (.ok v, c') →
      KeyHeld k rid c' ∧
      countRid rid c'.calls = countRid rid c.calls + (if r.rid = rid then 1 else 0) := by
  intro c v c' hk hstep
  unfold callResolverAux at hstep
  rcases h1 : resolveArgumentsAux bres r.params c with ⟨res1, c1⟩
  rw [h1] at hstep
  cases res1 with
  | error e => simp at hstep
  | ok args =>
    have hargs := argsShield k rid bres hb r.params c args c1 hk h1
    simp only [] at hstep
    by_cases hnil : Val.nil ∈ args
    · rw [if_pos hnil] at hstep
      simp at hstep
    · rw [if_neg hnil] at hstep
      rcases h2 : runBody r.body args (logCall c1 r.rid).next with ⟨v0, errOut, n'⟩
      rw [h2] at hstep
      have hfin : KeyHeld k rid ({ logCall c1 r.rid with next := n' }) ∧
          countRid rid ({ logCall c1 r.rid with next := n' }).calls =
            countRid rid c.calls + (if r.rid = rid then 1 else 0) := by
        constructor
        · exact keyHeld_setNext k rid _ n' (keyHeld_logCall k rid c1 r.rid hargs.1)
        · show countRid rid (c1.calls ++ [(r.rid, c1.rlock)]) = _
          rw [countRid_append, countRid_single, hargs.2]
      by_cases hout : r.numOut = 2
      · rw [if_pos hout] at hstep
        cases errOut with
        | some msg => simp at hstep
        | none =>
          simp only [Prod.mk.injEq, Except.ok.injEq] at hstep
          rw [← hstep.2]
          exact hfin
      · rw [if_neg hout] at hstep
        simp only [Prod.mk.injEq, Except.ok.injEq] at hstep
        rw [← hstep.2]
        exact hfin

theorem lockShield (k : Ty) (rid : Nat) :
    ∀ (fuel : Nat) (t : Ty) (c : Container) (v : Val) (c' : Container),
      KeyHeld k rid c → resolveBinding fuel t "" c = (.ok v, c') →
      KeyHeld k rid c' ∧ countRid rid c'.calls = countRid rid c.calls := by
  intro fuel
  induction fuel with
  | zero =>
    intro t c v c' hk hstep
    rw [resolveBinding_zero] at hstep
    simp at hstep
  | succ f ih =>
    intro t c v c' hk hstep
    cases hlook : lookupB c t "" with
    | none =>
      rw [resolveBinding_notFound f t "" c hlook] at hstep
      simp at hstep
    | some b =>
      by_cases hsing : b.singleton = true
      · by_cases hlk : b.locked = true
        · rw [resolveBinding_deadlock f t "" c b hlook hsing hlk] at hstep
          simp at hstep
        · have hlk' : b.locked = false := by revert hlk; cases b.locked <;> simp
          by_cases hcon : b.concrete = Val.nil
          · have ht : t ≠ k := by
              intro hteq
              subst hteq
              obtain ⟨⟨bk, hbk, hbl, -, -⟩, -⟩ := hk
              rw [hlook] at hbk
              injection hbk with hbb
              rw [← hbb, hlk'] at hbl
              exact Bool.false_ne_true hbl
            have hbrid : b.resolver.rid ≠ rid := hk.2 t b ht hlook
            rw [resolveBinding_construct f t "" c b hlook hsing hlk' hcon] at hstep
            rcases h2 : callResolverAux (fun t' c'' => resolveBinding f t' "" c'') b.resolver
              (mutBinding c t "" (fun b0 => { b0 with locked := true })) with ⟨res2, c2⟩
            rw [h2] at hstep
            cases res2 with
            | error e => simp at hstep
            | ok v2 =>
              simp only [Prod.mk.injEq, Except.ok.injEq] at hstep
              rw [← hstep.2]
              have hkLk : KeyHeld k rid
                  (mutBinding c t "" (fun b0 => { b0 with locked := true })) :=
                keyHeld_mutBinding_ne k rid c t _ (fun b0 => rfl) ht hk
              have hcall := callShield k rid _
                (fun t0 c0 v0 c0' hk0 hs0 => ih t0 c0 v0 c0' hk0 hs0) b.resolver _ v2 c2 hkLk h2
              refine ⟨keyHeld_mutBinding_ne k rid c2 t _ (fun b0 => rfl) ht hcall.1, ?_⟩
              rw [mutBinding_calls, hcall.2, mutBinding_calls]
              simp [hbrid]
          · have hcon' : b.concrete ≠ Val.nil := hcon
            rw [resolveBinding_cached f t "" c b hlook hsing hlk' hcon'] at hstep
            simp only [Prod.mk.injEq, Except.ok.injEq] at hstep
            rw [← hstep.2]
            exact ⟨hk, rfl⟩
      · have hsing' : b.singleton = false := by revert hsing; cases b.singleton <;> simp
        have ht : t ≠ k := by
          intro hteq
          subst hteq
          obtain ⟨⟨bk, hbk, -, hbs, -⟩, -⟩ := hk
          rw [hlook] at hbk
          injection hbk with hbb
          rw [← hbb, hsing'] at hbs
          exact Bool.false_ne_true hbs
        have hbrid : b.resolver.rid ≠ rid := hk.2 t b ht hlook
        rw [resolveBinding_transient f t "" c b hlook hsing'] at hstep
        have hcall := callShield k rid _
          (fun t0 c0 v0 c0' hk0 hs0 => ih t0 c0 v0 c0' hk0 hs0) b.resolver c v c' hk hstep
        refine ⟨hcall.1, ?_⟩
        rw [hcall.2]
        simp [hbrid]

/-! ## Claim C1 -/

/-- A successful `Bind` with no options registers a fresh lazy singleton
binding under the default name. -/
theorem Bind_default_ok (fuel : Nat) (r : Resolver) (c0 cb : Container) (u : Unit)
    (h : Bind fuel r [] c0 = (.ok u, cb)) :
    cb = setBinding (ensureTy c0 r.outTy) r.outTy ""
      { resolver := r, concrete := Val.nil, singleton := true, locked := false } := by
  unfold Bind bindCore at h
  simp only [List.foldl_nil, defaultConfig] at h
  by_cases hf : r.isFunc = false
  · rw [if_pos hf] at h
    exact absurd h (by simp)
  · rw [if_neg hf] at h
    by_cases harity : r.numOut = 0 ∨ r.numOut > 2
    · rw [if_pos harity] at h
      exact absurd h (by simp)
    · rw [if_neg harity] at h
      have hgt : r.numOut > 0 := by
        rcases Nat.eq_zero_or_pos r.numOut with h0 | h0
        · exact absurd (Or.inl h0) harity
        · exact h0
      rw [if_pos hgt] at h
      by_cases hself : r.outTy ∈ r.params
      · rw [if_pos hself] at h
        exact absurd h (by simp)
      · rw [if_neg hself] at h
        simp only [if_true, Prod.mk.injEq, Except.ok.injEq] at h
        exact h.2.symm

/-- C1: for a type `T` bound via `Bind` with default options (singleton
lifecycle, lazy timing, name `""`), if a first `Resolve` of `T` succeeds
then a second sequential `Resolve` also succeeds, returns the identical
(same-identity) instance without touching the container, and the binding's
factory is executed at most once across both calls (exactly once in the
first call, never in the second).  The identity hypothesis asks that no
*other* default-name binding carries the same resolver identity. -/
theorem C1_default_singleton (f0 f1 f2 : Nat) (r : Resolver) (c0 cb c1 : Container)
    (u : Unit) (v : Val)
    (hbind : Bind f0 r [] c0 = (.ok u, cb))
    (huniq : ∀ t' b', t' ≠ r.outTy → lookupB cb t' "" = some b' → b'.resolver.rid ≠ r.rid)
    (hfirst : resolve f1 r.outTy cb = (.ok v, c1)) :
    resolve (f2 + 1) r.outTy c1 = (.ok v, c1) ∧
    countRid r.rid c1.calls ≤ countRid r.rid cb.calls + 1 := by
  have hcb := Bind_default_ok f0 r c0 cb u hbind
  have hlook : lookupB cb r.outTy "" =
      some ⟨r, Val.nil, true, false⟩ := by
    rw [hcb]
    exact lookupB_setBinding_self _ _ _ _
  have hlook' : lookupB { cb with rlock := true } r.outTy "" =
      some ⟨r, Val.nil, true, false⟩ := hlook
  unfold resolve resolveNamed at hfirst
  rw [hlook'] at hfirst
  simp only [] at hfirst
  cases f1 with
  | zero =>
    rw [resolveBinding_zero] at hfirst
    simp at hfirst
  | succ g =>
    rw [resolveBinding_construct g r.outTy "" { cb with rlock := true }
      ⟨r, Val.nil, true, false⟩ hlook' rfl rfl rfl] at hfirst
    rcases h2 : callResolverAux (fun t' c'' => resolveBinding g t' "" c'')
        (Binding.mk r Val.nil true false).resolver
        (mutBinding { cb with rlock := true } r.outTy ""
          (fun b0 => { b0 with locked := true })) with ⟨res2, cX⟩
    rw [h2] at hfirst
    cases res2 with
    | error e => simp at hfirst
    | ok v0 =>
      simp only [] at hfirst
      by_cases hv0 : v0 = Val.nil
      · rw [if_pos hv0] at hfirst
        simp at hfirst
      · rw [if_neg hv0] at hfirst
        simp only [Prod.mk.injEq, Except.ok.injEq] at hfirst
        obtain ⟨hvv, hc1⟩ := hfirst
        -- the construction guard is held during the nested argument phase
        have hkLk : KeyHeld r.outTy r.rid
            (mutBinding { cb with rlock := true } r.outTy ""
              (fun b0 => { b0 with locked := true })) := by
          constructor
          · refine ⟨⟨r, Val.nil, true, true⟩, ?_, rfl, rfl, rfl⟩
            rw [lookupB_mutBinding_self, hlook']
            rfl
          · intro t' b' ht' hb'
            rw [lookupB_mutBinding_ne _ _ _ _ _ _ (Or.inl ht')] at hb'
            exact huniq t' b' ht' hb'
        have hcall := callShield r.outTy r.rid _
          (fun t0 cc0 vv0 cc0' hk0 hs0 => lockShield r.outTy r.rid g t0 cc0 vv0 cc0' hk0 hs0)
          (Binding.mk r Val.nil true false).resolver _ v0 cX hkLk h2
        have hcount : countRid r.rid cX.calls = countRid r.rid cb.calls + 1 := by
          have := hcall.2
          rw [mutBinding_calls] at this
          simpa using this
        obtain ⟨⟨⟨bkX, hbkX, hbkLk, hbkSing, hbkRid⟩, -⟩, -⟩ := hcall
        constructor
        · -- second resolve: cache hit on the now-cached instance
          have hlookC1 : lookupB c1 r.outTy "" =
              some { bkX with concrete := v, locked := false } := by
            rw [← hc1]
            have : lookupB { mutBinding cX r.outTy ""
                (fun b0 => { b0 with concrete := v0, locked := false }) with rlock := false }
                r.outTy "" =
                lookupB (mutBinding cX r.outTy ""
                  (fun b0 => { b0 with concrete := v0, locked := false })) r.outTy "" := rfl
            rw [this, lookupB_mutBinding_self, hbkX, hvv]
            rfl
          have hrlc1 : c1.rlock = false := by rw [← hc1]
          unfold resolve resolveNamed
          have hlookC1' : lookupB { c1 with rlock := true } r.outTy "" =
              some { bkX with concrete := v, locked := false } := hlookC1
          rw [hlookC1']
          simp only []
          rw [resolveBinding_cached f2 r.outTy "" { c1 with rlock := true }
            { bkX with concrete := v, locked := false } hlookC1' (by simpa using hbkSing) rfl
            (hvv ▸ hv0)]
          simp only [if_neg (hvv ▸ hv0 : ¬(v = Val.nil))]
          rw [rlock_roundtrip c1 hrlc1]
        · -- the factory executed exactly once during the first resolve
          have : c1.calls = cX.calls := by rw [← hc1]; rfl
          rw [this, hcount]

/-- The container with only a default lazy singleton `Database` binding. -/
def cFix1 : Container := (Bind 1 (leafMake 0 tyDb) [] New).2

/-- Witness for C1 on a concrete container: the second resolution returns
the identical instance without state change, and the factory ran once. -/
theorem C1_default_singleton_witness :
    resolve (3 + 1) tyDb (resolve 3 tyDb cFix1).2 =
      (.ok (Val.obj 0 Val.listNil), (resolve 3 tyDb cFix1).2) ∧
    countRid 0 (resolve 3 tyDb cFix1).2.calls ≤ countRid 0 cFix1.calls + 1 :=
  C1_default_singleton 1 3 3 (leafMake 0 tyDb) New cFix1 (resolve 3 tyDb cFix1).2 ()
    (Val.obj 0 Val.listNil) rfl
    (by
      intro t' b' ht hb
      have ht' : t' ≠ tyDb := ht
      rw [show cFix1 = Container.mk
        [(tyDb, [("", Binding.mk (leafMake 0 tyDb) Val.nil true false)])] 0 [] false
        from rfl] at hb
      simp [lookupB, lookupTy, Ne.symm ht'] at hb)
    rfl

/-! ## Claim C5 -/

/-- Whether an error value names a given type.  The structured errors of the
engine carry exactly the types their Go message interpolates
(`"no binding found for type %s with name '%s'"`,
`"failed resolving argument " + type`); the remaining errors name no type. -/
def mentionsTy : Err → Ty → Bool
  | .notFound t _, ty => t == ty
  | .argNotFound t, ty => t == ty
  | _, _ => false

/-- A registry with a two-level dependency chain: the factory for `u` needs
`v`, the factory for `v` needs `w`, and `w` is unbound (the state two
default `Bind` calls produce). -/
def cChain (u v w : String) : Container :=
  { bindings :=
      [(Ty.base v, [("", { resolver := depMake 0 (Ty.base w) (Ty.base v),
                           concrete := Val.nil, singleton := true, locked := false })]),
       (Ty.base u, [("", { resolver := depMake 1 (Ty.base v) (Ty.base u),
                           concrete := Val.nil, singleton := true, locked := false })])],
    next := 0, calls := [], rlock := false }

/-- C5, counterexample: the claim says each recursion frame wraps the
received failure with the type it was resolving, so the final error names
the bottom-most cause *and every type traversed above it*.  Resolving
`OrderService` (which needs `UserService`, which needs the unbound
`Database`) yields exactly the bottom-most error `argNotFound Database`; it
does not mention `UserService` or `OrderService` — no frame wrapped it. -/
theorem C5_counterexample :
    (resolve 9 tyOs (cChain "OrderService" "UserService" "Database")).1 =
      .error (.argNotFound tyDb) ∧
    mentionsTy (Err.argNotFound tyDb) tyUs = false ∧
    mentionsTy (Err.argNotFound tyDb) tyOs = false := by
  refine ⟨by decide, by decide, by decide⟩

/-- C5 (amended): whenever a nested resolution fails at any depth, every
recursion frame of the engine re-raises the received failure *unchanged*
(no frame wraps it with the type it was resolving), so the final caller
receives exactly the bottom-most error.  One conjunct per frame kind, each
universally quantified over containers, depths, arguments and errors: a
failing nested binding resolution aborts the argument list with exactly its
error (at the head, and equally past earlier successful arguments), the
deferred-parameter frame passes a failure of the remaining list through,
failing argument resolution aborts the factory call with exactly its error
(the factory is not invoked), a singleton construction frame re-raises the
constructor's failure unchanged while releasing its guard, a transient
frame re-raises it with no change at all, and the public entry point
returns the engine's failure verbatim. -/
theorem C5_error_propagates_unchanged :
    (∀ (bres : Ty → Container → Except Err Val × Container) (t : Ty) (ts : List Ty)
        (c c1 : Container) (e : Err) (b : Binding),
      isLazy t = false → lookupB c t "" = some b → bres t c = (.error e, c1) →
      resolveArgumentsAux bres (t :: ts) c = (.error e, c1)) ∧
    (∀ (bres : Ty → Container → Except Err Val × Container) (t : Ty) (ts : List Ty)
        (c c1 c2 : Container) (v : Val) (e : Err) (b : Binding),
      isLazy t = false → lookupB c t "" = some b → bres t c = (.ok v, c1) →
      resolveArgumentsAux bres ts c1 = (.error e, c2) →
      resolveArgumentsAux bres (t :: ts) c = (.error e, c2)) ∧
    (∀ (bres : Ty → Container → Except Err Val × Container) (t : Ty) (ts : List Ty)
        (c c1 : Container) (e : Err),
      isLazy t = true → resolveArgumentsAux bres ts c = (.error e, c1) →
      resolveArgumentsAux bres (t :: ts) c = (.error e, c1)) ∧
    (∀ (bres : Ty → Container → Except Err Val × Container) (r : Resolver)
        (c c1 : Container) (e : Err),
      resolveArgumentsAux bres r.params c = (.error e, c1) →
      callResolverAux bres r c = (.error e, c1)) ∧
    (∀ (fuel : Nat) (t : Ty) (n : String) (c c1 : Container) (e : Err) (b : Binding),
      lookupB c t n = some b → b.singleton = true → b.locked = false →
      b.concrete = Val.nil →
      callResolverAux (fun t' c' => resolveBinding fuel t' "" c') b.resolver
        (mutBinding c t n (fun b0 => { b0 with locked := true })) = (.error e, c1) →
      resolveBinding (fuel + 1) t n c =
        (.error e, mutBinding c1 t n (fun b0 => { b0 with locked := false }))) ∧
    (∀ (fuel : Nat) (t : Ty) (n : String) (c c1 : Container) (e : Err) (b : Binding),
      lookupB c t n = some b → b.singleton = false →
      callResolverAux (fun t' c' => resolveBinding fuel t' "" c') b.resolver c =
        (.error e, c1) →
      resolveBinding (fuel + 1) t n c = (.error e, c1)) ∧
    (∀ (fuel : Nat) (t : Ty) (n : String) (c c1 : Container) (e : Err) (b : Binding),
      lookupB c t n = some b →
      resolveBinding fuel t n { c with rlock := true } = (.error e, c1) →
      resolveNamed fuel t n c = (.error e, { c1 with rlock := false })) := by
  refine ⟨?_, ?_, ?_, ?_, ?_, ?_, ?_⟩
  · intro bres t ts c c1 e b hl hb hstep
    simp only [resolveArgumentsAux]
    rw [if_neg (by simp [hl]), hb]
    simp only []
    rw [hstep]
  · intro bres t ts c c1 c2 v e b hl hb hstep hrest
    simp only [resolveArgumentsAux]
    rw [if_neg (by simp [hl]), hb]
    simp only []
    rw [hstep]
    simp only []
    rw [hrest]
  · intro bres t ts c c1 e hl hrest
    simp only [resolveArgumentsAux]
    rw [if_pos hl, hrest]
  · intro bres r c c1 e hargs
    unfold callResolverAux
    rw [hargs]
  · intro fuel t n c c1 e b hb hs hl hcon hstep
    rw [resolveBinding_construct fuel t n c b hb hs hl hcon, hstep]
  · intro fuel t n c c1 e b hb hs hstep
    rw [resolveBinding_transient fuel t n c b hb hs]
    exact hstep
  · intro fuel t n c c1 e b hb hstep
    unfold resolveNamed
    have hb' : lookupB { c with rlock := true } t n = some b := hb
    rw [hb']
    simp only []
    rw [hstep]

/-- Witness for C5 (amended): two of the frames exercised on the concrete
chain `OrderService → UserService → (unbound) Database` — the argument
frame passes the nested failure through verbatim, and the public entry
point returns the engine's failure verbatim. -/
theorem C5_error_propagates_unchanged_witness :
    resolveArgumentsAux (fun t' c' => resolveBinding 8 t' "" c') [tyUs]
        (cChain "OrderService" "UserService" "Database") =
      (.error (.argNotFound tyDb),
        (resolveBinding 8 tyUs "" (cChain "OrderService" "UserService" "Database")).2) ∧
    resolveNamed 9 tyOs "" (cChain "OrderService" "UserService" "Database") =
      (.error (.argNotFound tyDb),
        { (resolveBinding 9 tyOs ""
            { cChain "OrderService" "UserService" "Database" with rlock := true }).2
          with rlock := false }) :=
  ⟨C5_error_propagates_unchanged.1 (fun t' c' => resolveBinding 8 t' "" c') tyUs []
      (cChain "OrderService" "UserService" "Database")
      (resolveBinding 8 tyUs "" (cChain "OrderService" "UserService" "Database")).2
      (.argNotFound tyDb)
      { resolver := depMake 0 tyDb tyUs, concrete := Val.nil, singleton := true,
        locked := false }
      rfl rfl rfl,
   C5_error_propagates_unchanged.2.2.2.2.2.2 9 tyOs ""
      (cChain "OrderService" "UserService" "Database")
      (resolveBinding 9 tyOs ""
        { cChain "OrderService" "UserService" "Database" with rlock := true }).2
      (.argNotFound tyDb)
      { resolver := depMake 1 tyUs tyOs, concrete := Val.nil, singleton := true,
        locked := false }
      rfl rfl⟩

/-! ## Well-formedness of the registry (maps have no duplicate keys) -/

/-- The registry represents two levels of Go maps: outer and inner key lists
have no duplicates. -/
def wfC (c : Container) : Prop :=
  (c.bindings.map Prod.fst).Nodup ∧ ∀ p ∈ c.bindings, (p.2.map Prod.fst).Nodup

/-- Number of registry entries stored under the key `(t, n)`. -/
def keyCount (c : Container) (t : Ty) (n : String) : Nat :=
  match lookupTy c.bindings t with
  | none => 0
  | some m => (m.filter (fun q => q.1 = n)).length

theorem lookupTy_eq_none_of_not_mem (l : List (Ty × List (String × Binding))) (t : Ty)
    (h : t ∉ l.map Prod.fst) : lookupTy l t = none := by
  induction l with
  | nil => rfl
  | cons p rest ih =>
    simp only [List.map_cons, List.mem_cons] at h
    push_neg at h
    obtain ⟨h1, h2⟩ := h
    obtain ⟨t0, m0⟩ := p
    simp only [lookupTy]
    rw [if_neg (by simpa using Ne.symm h1)]
    exact ih h2

theorem not_mem_of_lookupTy_none (l : List (Ty × List (String × Binding))) (t : Ty)
    (h : lookupTy l t = none) : t ∉ l.map Prod.fst := by
  induction l with
  | nil => simp
  | cons p rest ih =>
    obtain ⟨t0, m0⟩ := p
    simp only [lookupTy] at h
    by_cases h0 : t0 = t
    · rw [if_pos h0] at h
      exact absurd h (by simp)
    · rw [if_neg h0] at h
      simp only [List.map_cons, List.mem_cons]
      push_neg
      exact ⟨Ne.symm h0, ih h⟩

theorem not_mem_of_lookupInner_none (m : List (String × Binding)) (n : String)
    (h : lookupInner m n = none) : n ∉ m.map Prod.fst := by
  induction m with
  | nil => simp
  | cons q rest ih =>
    obtain ⟨n0, b0⟩ := q
    simp only [lookupInner] at h
    by_cases h0 : n0 = n
    · rw [if_pos h0] at h
      exact absurd h (by simp)
    · rw [if_neg h0] at h
      simp only [List.map_cons, List.mem_cons]
      push_neg
      exact ⟨Ne.symm h0, ih h⟩

theorem insertInner_keys (m : List (String × Binding)) (n : String) (b : Binding) :
    (insertInner m n b).map Prod.fst =
      (if n ∈ m.map Prod.fst then m.map Prod.fst else m.map Prod.fst ++ [n]) := by
  induction m with
  | nil => simp [insertInner]
  | cons q rest ih =>
    obtain ⟨n0, b0⟩ := q
    by_cases h0 : n0 = n
    · subst h0
      simp [insertInner]
    · simp only [insertInner, if_neg h0, List.map_cons, ih]
      by_cases hmem : n ∈ rest.map Prod.fst
      · rw [if_pos hmem, if_pos (by simp [hmem])]
      · rw [if_neg hmem, if_neg (by simp [hmem, Ne.symm h0])]
        simp

theorem insertTy_keys (l : List (Ty × List (String × Binding))) (t : Ty)
    (m : List (String × Binding)) :
    (insertTy l t m).map Prod.fst =
      (if t ∈ l.map Prod.fst then l.map Prod.fst else l.map Prod.fst ++ [t]) := by
  induction l with
  | nil => simp [insertTy]
  | cons p rest ih =>
    obtain ⟨t0, m0⟩ := p
    by_cases h0 : t0 = t
    · subst h0
      simp [insertTy]
    · simp only [insertTy, if_neg h0, List.map_cons, ih]
      by_cases hmem : t ∈ rest.map Prod.fst
      · rw [if_pos hmem, if_pos (by simp [hmem])]
      · rw [if_neg hmem, if_neg (by simp [hmem, Ne.symm h0])]
        simp

theorem mem_insertTy (l : List (Ty × List (String × Binding))) (t : Ty)
    (m : List (String × Binding)) (p : Ty × List (String × Binding))
    (hp : p ∈ insertTy l t m) : p = (t, m) ∨ p ∈ l := by
  induction l with
  | nil =>
    left
    simpa [insertTy] using hp
  | cons q rest ih =>
    obtain ⟨t0, m0⟩ := q
    by_cases h0 : t0 = t
    · subst h0
      rw [show insertTy ((t0, m0) :: rest) t0 m = (t0, m) :: rest from by
        simp [insertTy]] at hp
      rcases List.mem_cons.mp hp with h | h
      · exact Or.inl h
      · exact Or.inr (List.mem_cons_of_mem _ h)
    · rw [show insertTy ((t0, m0) :: rest) t m = (t0, m0) :: insertTy rest t m from by
        simp [insertTy, h0]] at hp
      rcases List.mem_cons.mp hp with h | h
      · exact Or.inr (by rw [h]; exact List.mem_cons_self _ _)
      · rcases ih h with h1 | h1
        · exact Or.inl h1
        · exact Or.inr (List.mem_cons_of_mem _ h1)

theorem mem_insertInner (m : List (String × Binding)) (n : String) (b : Binding)
    (q : String × Binding) (hq : q ∈ insertInner m n b) : q = (n, b) ∨ q ∈ m := by
  induction m with
  | nil =>
    left
    simpa [insertInner] using hq
  | cons q0 rest ih =>
    obtain ⟨n0, b0⟩ := q0
    by_cases h0 : n0 = n
    · subst h0
      rw [show insertInner ((n0, b0) :: rest) n0 b = (n0, b) :: rest from by
        simp [insertInner]] at hq
      rcases List.mem_cons.mp hq with h | h
      · exact Or.inl h
      · exact Or.inr (List.mem_cons_of_mem _ h)
    · rw [show insertInner ((n0, b0) :: rest) n b = (n0, b0) :: insertInner rest n b from by
        simp [insertInner, h0]] at hq
      rcases List.mem_cons.mp hq with h | h
      · exact Or.inr (by rw [h]; exact List.mem_cons_self _ _)
      · rcases ih h with h1 | h1
        · exact Or.inl h1
        · exact Or.inr (List.mem_cons_of_mem _ h1)

theorem wfC_ensureTy (c : Container) (t : Ty) (h : wfC c) : wfC (ensureTy c t) := by
  unfold ensureTy
  cases hl : lookupTy c.bindings t with
  | some m => exact h
  | none =>
    obtain ⟨h1, h2⟩ := h
    constructor
    · rw [show (Container.mk (c.bindings ++ [(t, [])]) c.next c.calls c.rlock).bindings =
        c.bindings ++ [(t, [])] from rfl]
      rw [List.map_append]
      simp only [List.map_cons, List.map_nil]
      rw [List.nodup_append]
      refine ⟨h1, by simp, ?_⟩
      intro x hx
      simp only [List.mem_singleton]
      intro hxa
      exact (not_mem_of_lookupTy_none c.bindings t hl) (hxa ▸ hx)
    · intro p hp
      rw [show (Container.mk (c.bindings ++ [(t, [])]) c.next c.calls c.rlock).bindings =
        c.bindings ++ [(t, [])] from rfl] at hp
      rcases List.mem_append.mp hp with hp | hp
      · exact h2 p hp
      · simp only [List.mem_singleton] at hp
        subst hp
        simp

theorem wfC_setBinding (c : Container) (t : Ty) (n : String) (b : Binding) (h : wfC c) :
    wfC (setBinding c t n b) := by
  unfold setBinding
  obtain ⟨h1, h2⟩ := h
  cases hl : lookupTy c.bindings t with
  | some m =>
    constructor
    · rw [show (Container.mk (insertTy c.bindings t (insertInner m n b)) c.next c.calls
        c.rlock).bindings = insertTy c.bindings t (insertInner m n b) from rfl]
      rw [insertTy_keys]
      have hmem : t ∈ c.bindings.map Prod.fst := by
        have := lookupTy_mem hl
        exact List.mem_map.mpr ⟨(t, m), this, rfl⟩
      rw [if_pos hmem]
      exact h1
    · intro p hp
      rw [show (Container.mk (insertTy c.bindings t (insertInner m n b)) c.next c.calls
        c.rlock).bindings = insertTy c.bindings t (insertInner m n b) from rfl] at hp
      rcases mem_insertTy c.bindings t (insertInner m n b) p hp with hp1 | hp1
      · subst hp1
        rw [insertInner_keys]
        have hinner := h2 (t, m) (lookupTy_mem hl)
        by_cases hmem : n ∈ m.map Prod.fst
        · rw [if_pos hmem]
          exact hinner
        · rw [if_neg hmem]
          rw [List.nodup_append]
          refine ⟨hinner, by simp, ?_⟩
          intro x hx
          simp only [List.mem_singleton]
          intro hxa
          subst hxa
          exact hmem hx
      · exact h2 p hp1
  | none =>
    constructor
    · rw [show (Container.mk (c.bindings ++ [(t, [(n, b)])]) c.next c.calls c.rlock).bindings =
        c.bindings ++ [(t, [(n, b)])] from rfl]
      rw [List.map_append]
      simp only [List.map_cons, List.map_nil]
      rw [List.nodup_append]
      refine ⟨h1, by simp, ?_⟩
      intro x hx
      simp only [List.mem_singleton]
      intro hxa
      exact (not_mem_of_lookupTy_none c.bindings t hl) (hxa ▸ hx)
    · intro p hp
      rw [show (Container.mk (c.bindings ++ [(t, [(n, b)])]) c.next c.calls c.rlock).bindings =
        c.bindings ++ [(t, [(n, b)])] from rfl] at hp
      rcases List.mem_append.mp hp with hp | hp
      · exact h2 p hp
      · simp only [List.mem_singleton] at hp
        subst hp
        simp

theorem filter_length_eq_count (m : List (String × Binding)) (n : String) :
    (m.filter (fun q => q.1 = n)).length = (m.map Prod.fst).count n := by
  induction m with
  | nil => rfl
  | cons q rest ih =>
    obtain ⟨n0, b0⟩ := q
    by_cases h0 : n0 = n
    · subst h0
      simp [List.filter_cons, List.count_cons, ih]
    · simp [List.filter_cons, List.count_cons, h0, ih, Ne.symm h0]

theorem keyCount_eq_one (c : Container) (t : Ty) (n : String) (b : Binding)
    (hwf : wfC c) (hb : lookupB c t n = some b) : keyCount c t n = 1 := by
  unfold keyCount
  unfold lookupB at hb
  cases hl : lookupTy c.bindings t with
  | none => rw [hl] at hb; exact absurd hb (by simp)
  | some m =>
    rw [hl] at hb
    simp only [] at hb ⊢
    rw [filter_length_eq_count]
    have hinner := hwf.2 (t, m) (lookupTy_mem hl)
    have hmem : n ∈ m.map Prod.fst :=
      List.mem_map.mpr ⟨(n, b), lookupInner_mem hb, rfl⟩
    exact List.count_eq_one_of_mem hinner hmem

/-! ## Characterisation of registered resolver identities -/

theorem lookupTy_of_mem_nodup (l : List (Ty × List (String × Binding))) (t : Ty)
    (m : List (String × Binding)) (hnd : (l.map Prod.fst).Nodup) (hm : (t, m) ∈ l) :
    lookupTy l t = some m := by
  induction l with
  | nil => simp at hm
  | cons p rest ih =>
    obtain ⟨t0, m0⟩ := p
    simp only [List.map_cons, List.nodup_cons] at hnd
    rcases List.mem_cons.mp hm with h | h
    · injection h with ht hm2
      subst ht
      subst hm2
      simp [lookupTy]
    · simp only [lookupTy]
      by_cases h0 : t0 = t
      · subst h0
        exact absurd (List.mem_map.mpr ⟨(t0, m), h, rfl⟩) hnd.1
      · rw [if_neg h0]
        exact ih hnd.2 h

theorem lookupInner_of_mem_nodup (m : List (String × Binding)) (n : String) (b : Binding)
    (hnd : (m.map Prod.fst).Nodup) (hm : (n, b) ∈ m) : lookupInner m n = some b := by
  induction m with
  | nil => simp at hm
  | cons q rest ih =>
    obtain ⟨n0, b0⟩ := q
    simp only [List.map_cons, List.nodup_cons] at hnd
    rcases List.mem_cons.mp hm with h | h
    · injection h with hn hb2
      subst hn
      subst hb2
      simp [lookupInner]
    · simp only [lookupInner]
      by_cases h0 : n0 = n
      · subst h0
        exact absurd (List.mem_map.mpr ⟨(n0, b), h, rfl⟩) hnd.1
      · rw [if_neg h0]
        exact ih hnd.2 h

theorem exists_of_mem_ridsOfList (l : List (Ty × List (String × Binding))) (x : Nat)
    (hx : x ∈ l.foldr (fun p acc => ridsInner p.2 ++ acc) []) :
    ∃ p ∈ l, x ∈ ridsInner p.2 := by
  induction l with
  | nil => simp at hx
  | cons p rest ih =>
    simp only [List.foldr_cons, List.mem_append] at hx
    rcases hx with hx | hx
    · exact ⟨p, List.mem_cons_self _ _, hx⟩
    · obtain ⟨q, hq1, hq2⟩ := ih hx
      exact ⟨q, List.mem_cons_of_mem _ hq1, hq2⟩

/-- Under well-formedness, a registered resolver identity is witnessed by a
registry lookup. -/
theorem exists_lookup_of_mem_ridsOf (c : Container) (x : Nat) (hwf : wfC c)
    (hx : x ∈ ridsOf c) : ∃ t n b, lookupB c t n = some b ∧ b.resolver.rid = x := by
  obtain ⟨⟨t, m⟩, hp, hx2⟩ := exists_of_mem_ridsOfList c.bindings x hx
  unfold ridsInner at hx2
  obtain ⟨⟨n, b⟩, hq, hq2⟩ := List.mem_map.mp hx2
  refine ⟨t, n, b, ?_, hq2⟩
  unfold lookupB
  rw [lookupTy_of_mem_nodup c.bindings t m hwf.1 hp]
  exact lookupInner_of_mem_nodup m n b (hwf.2 (t, m) hp) hq

/-- A successful `Bind` with only a name option registers a fresh lazy
singleton binding under that name. -/
theorem Bind_named_lazy (fuel : Nat) (r : Resolver) (c : Container) (n : String)
    (hf : r.isFunc = true) (h1 : 1 ≤ r.numOut) (h2 : r.numOut ≤ 2)
    (hself : r.outTy ∉ r.params) :
    Bind fuel r [withName n] c =
      (.ok (), setBinding (ensureTy c r.outTy) r.outTy n
        { resolver := r, concrete := Val.nil, singleton := true, locked := false }) := by
  unfold Bind bindCore
  simp only [List.foldl_cons, List.foldl_nil, withName, defaultConfig]
  rw [if_neg (by simp [hf])]
  rw [if_neg (show ¬(r.numOut = 0 ∨ r.numOut > 2) by omega)]
  rw [if_pos (show r.numOut > 0 by omega)]
  rw [if_neg hself]
  simp

/-- A successful `Bind` with only a name option registered a fresh lazy
singleton binding under that name (converse direction, from the success of
the call). -/
theorem Bind_named_ok (fuel : Nat) (r : Resolver) (c0 cb : Container) (n : String) (u : Unit)
    (h : Bind fuel r [withName n] c0 = (.ok u, cb)) :
    cb = setBinding (ensureTy c0 r.outTy) r.outTy n
      { resolver := r, concrete := Val.nil, singleton := true, locked := false } := by
  unfold Bind bindCore at h
  simp only [List.foldl_cons, List.foldl_nil, withName, defaultConfig] at h
  by_cases hf : r.isFunc = false
  · rw [if_pos hf] at h
    exact absurd h (by simp)
  · rw [if_neg hf] at h
    by_cases harity : r.numOut = 0 ∨ r.numOut > 2
    · rw [if_pos harity] at h
      exact absurd h (by simp)
    · rw [if_neg harity] at h
      have hgt : r.numOut > 0 := by
        rcases Nat.eq_zero_or_pos r.numOut with h0 | h0
        · exact absurd (Or.inl h0) harity
        · exact h0
      rw [if_pos hgt] at h
      by_cases hself : r.outTy ∈ r.params
      · rw [if_pos hself] at h
        exact absurd h (by simp)
      · rw [if_neg hself] at h
        simp only [if_true, Prod.mk.injEq, Except.ok.injEq] at h
        exact h.2.symm

/-! ## Claim C6 -/

/-- C6: registering a binding twice for the same `(type, name)` key replaces
the prior binding.  Afterwards the registry holds exactly one entry for that
key, that entry's resolver is the second factory, and a subsequent
resolution of the key never executes the first factory: the first factory's
identity (assumed not registered elsewhere) never gains call-log entries. -/
theorem C6_rebind_replaces (f1 f2 : Nat) (r1 r2 : Resolver) (n : String)
    (c cA c2 : Container) (u1 u2 : Unit)
    (houts : r1.outTy = r2.outTy)
    (hb1 : Bind f1 r1 [withName n] c = (.ok u1, cA))
    (hb2 : Bind f2 r2 [withName n] cA = (.ok u2, c2))
    (hwf : wfC c)
    (hrid1 : r1.rid ∉ ridsOf c) (hrr : r1.rid ≠ r2.rid) :
    lookupB c2 r2.outTy n =
      some { resolver := r2, concrete := Val.nil, singleton := true, locked := false } ∧
    keyCount c2 r2.outTy n = 1 ∧
    ∀ fuel, countRid r1.rid (resolveNamed fuel r2.outTy n c2).2.calls =
      countRid r1.rid c2.calls := by
  have hcA := Bind_named_ok f1 r1 c cA n u1 hb1
  have hc2 := Bind_named_ok f2 r2 cA c2 n u2 hb2
  rw [houts] at hcA
  have hlook2 : lookupB c2 r2.outTy n =
      some { resolver := r2, concrete := Val.nil, singleton := true, locked := false } := by
    rw [hc2]
    exact lookupB_setBinding_self _ _ _ _
  have hwfA : wfC cA := by
    rw [hcA]
    exact wfC_setBinding _ _ _ _ (wfC_ensureTy _ _ hwf)
  have hwf2 : wfC c2 := by
    rw [hc2]
    exact wfC_setBinding _ _ _ _ (wfC_ensureTy _ _ hwfA)
  have hnotin : r1.rid ∉ ridsOf c2 := by
    intro hmem
    obtain ⟨t', n', b', hlk, hr⟩ := exists_lookup_of_mem_ridsOf c2 r1.rid hwf2 hmem
    by_cases hkey : t' = r2.outTy ∧ n' = n
    · obtain ⟨hk1, hk2⟩ := hkey
      subst hk1
      subst hk2
      rw [hlook2] at hlk
      injection hlk with hlk2
      rw [← hlk2] at hr
      exact hrr hr.symm
    · have hor : t' ≠ r2.outTy ∨ n' ≠ n := by
        by_cases ht : t' = r2.outTy
        · right; intro hn; exact hkey ⟨ht, hn⟩
        · left; exact ht
      rw [hc2, lookupB_setBinding_ne _ _ _ _ _ _ hor, lookupB_ensureTy] at hlk
      rw [hcA, lookupB_setBinding_ne _ _ _ _ _ _ hor, lookupB_ensureTy] at hlk
      have := mem_ridsOf_of_lookupB hlk
      rw [hr] at this
      exact hrid1 this
  refine ⟨hlook2, keyCount_eq_one c2 r2.outTy n _ hwf2 hlook2, ?_⟩
  intro fuel
  obtain ⟨cmid, hshape, hfin⟩ := resolveNamed_state fuel r2.outTy n c2
  obtain ⟨-, -, -, new, hcalls, hprops⟩ := hshape
  have hcm : (resolveNamed fuel r2.outTy n c2).2.calls = c2.calls ++ new := by
    rw [hfin]
    simpa using hcalls
  rw [hcm, countRid_append]
  have hz : countRid r1.rid new = 0 := by
    apply countRid_eq_of_not_mem
    intro p hp hpe
    have hin : p.1 ∈ ridsOf ({ c2 with rlock := true } : Container) := (hprops p hp).2
    have hin2 : p.1 ∈ ridsOf c2 := hin
    rw [hpe] at hin2
    exact hnotin hin2
  rw [hz]
  exact Nat.add_zero _

/-- Witness for C6: after binding `Database` twice under the name `"x"`,
the stored binding carries the second resolver, and the key has exactly one
entry. -/
theorem C6_rebind_replaces_witness :
    lookupB (Bind 1 (leafMake 4 tyDb) [withName "x"]
        (Bind 1 (leafMake 3 tyDb) [withName "x"] New).2).2 tyDb "x" =
      some { resolver := leafMake 4 tyDb, concrete := Val.nil, singleton := true,
             locked := false } ∧
    keyCount (Bind 1 (leafMake 4 tyDb) [withName "x"]
        (Bind 1 (leafMake 3 tyDb) [withName "x"] New).2).2 tyDb "x" = 1 := by
  have h := C6_rebind_replaces 1 1 (leafMake 3 tyDb) (leafMake 4 tyDb) "x" New
    (Bind 1 (leafMake 3 tyDb) [withName "x"] New).2
    (Bind 1 (leafMake 4 tyDb) [withName "x"]
      (Bind 1 (leafMake 3 tyDb) [withName "x"] New).2).2 () ()
    rfl rfl rfl (by constructor <;> simp [New]) (by simp [ridsOf, New]) (by decide)
  exact ⟨h.1, h.2.1⟩

/-! ## Claim C7 -/

theorem ridsOf_ensureTy (c : Container) (t : Ty) : ridsOf (ensureTy c t) = ridsOf c := by
  unfold ensureTy
  cases lookupTy c.bindings t with
  | some m => rfl
  | none =>
    unfold ridsOf
    rw [show (Container.mk (c.bindings ++ [(t, [])]) c.next c.calls c.rlock).bindings =
      c.bindings ++ [(t, [])] from rfl]
    rw [List.foldr_append]
    rfl

/-- Source `Container.Bind` with the eager option: the factory is invoked during
the registration call; on failure the error is returned and nothing is
stored, on success a singleton binding caching the eager instance is
stored. -/
theorem Bind_eager_eq (fuel : Nat) (r : Resolver) (c : Container)
    (hf : r.isFunc = true) (h1 : 1 ≤ r.numOut) (h2 : r.numOut ≤ 2)
    (hself : r.outTy ∉ r.params) :
    Bind fuel r [withEager] c =
      (match callResolver fuel r (ensureTy c r.outTy) with
       | (.error e, c2) => (.error e, c2)
       | (.ok v, c2) =>
         (.ok (), setBinding c2 r.outTy ""
           { resolver := r, concrete := v, singleton := true, locked := false })) := by
  unfold Bind bindCore
  simp only [List.foldl_cons, List.foldl_nil, withEager, defaultConfig]
  rw [if_neg (by simp [hf])]
  rw [if_neg (show ¬(r.numOut = 0 ∨ r.numOut > 2) by omega)]
  rw [if_pos (show r.numOut > 0 by omega)]
  rw [if_neg hself]
  simp only [Bool.false_eq_true, if_false]
  rcases h0 : callResolver fuel r (ensureTy c r.outTy) with ⟨res, c2⟩
  cases res <;> simp

/-- During `callResolver` on a resolver whose identity is not registered,
the nested argument resolutions never execute that resolver; a successful
call therefore logs its factory exactly once (and preserves the
read-section flag). -/
theorem callResolver_count_fresh (fuel : Nat) (r : Resolver) (c : Container)
    (hrid : r.rid ∉ ridsOf c) :
    ∀ v c', callResolver fuel r c = (.ok v, c') →
      countRid r.rid c'.calls = countRid r.rid c.calls + 1 ∧ c'.rlock = c.rlock := by
  intro v c' hstep
  unfold callResolver callResolverAux at hstep
  rcases h1 : resolveArgumentsAux (fun t' c'' => resolveBinding fuel t' "" c'')
    r.params c with ⟨res1, c1⟩
  rw [h1] at hstep
  cases res1 with
  | error e => simp at hstep
  | ok args =>
    have hargs : Shape c c1 := by
      have := shape_resolveArgumentsAux _ (fun t' c'' => shape_resolveBinding fuel t' "" c'')
        r.params c
      rwa [h1] at this
    obtain ⟨hrlk, -, hrids, new1, hcalls1, hprops1⟩ := hargs
    have hcount1 : countRid r.rid c1.calls = countRid r.rid c.calls := by
      rw [hcalls1, countRid_append]
      have hz : countRid r.rid new1 = 0 := by
        apply countRid_eq_of_not_mem
        intro p hp hpe
        have := (hprops1 p hp).2
        rw [hpe] at this
        exact hrid this
      rw [hz]
      exact Nat.add_zero _
    simp only [] at hstep
    by_cases hnil : Val.nil ∈ args
    · rw [if_pos hnil] at hstep
      simp at hstep
    · rw [if_neg hnil] at hstep
      rcases h2 : runBody r.body args (logCall c1 r.rid).next with ⟨v0, errOut, n'⟩
      rw [h2] at hstep
      have hfin : countRid r.rid ({ logCall c1 r.rid with next := n' }).calls =
          countRid r.rid c.calls + 1 := by
        show countRid r.rid (c1.calls ++ [(r.rid, c1.rlock)]) = _
        rw [countRid_append, countRid_single, if_pos rfl, hcount1]
      by_cases hout : r.numOut = 2
      · rw [if_pos hout] at hstep
        cases errOut with
        | some msg => simp at hstep
        | none =>
          simp only [Prod.mk.injEq, Except.ok.injEq] at hstep
          rw [← hstep.2]
          exact ⟨hfin, hrlk⟩
      · rw [if_neg hout] at hstep
        simp only [Prod.mk.injEq, Except.ok.injEq] at hstep
        rw [← hstep.2]
        exact ⟨hfin, hrlk⟩

/-- A `callResolver` call (any outcome) stores no binding: every key's registered
resolver and lifecycle flag are unchanged. -/
theorem callResolver_binfo (fuel : Nat) (r : Resolver) (c : Container) :
    ∀ t' n', ((callResolver fuel r c).2.bindings) = (callResolver fuel r c).2.bindings ∧
    (lookupB (callResolver fuel r c).2 t' n').map binfo = (lookupB c t' n').map binfo := by
  intro t' n'
  refine ⟨rfl, ?_⟩
  unfold callResolver callResolverAux
  rcases h1 : resolveArgumentsAux (fun t'' c'' => resolveBinding fuel t'' "" c'')
    r.params c with ⟨res1, c1⟩
  have hargs : Shape c c1 := by
    have := shape_resolveArgumentsAux _ (fun t'' c'' => shape_resolveBinding fuel t'' "" c'')
      r.params c
    rwa [h1] at this
  cases res1 with
  | error e => simpa using hargs.2.1 t' n'
  | ok args =>
    simp only []
    by_cases hnil : Val.nil ∈ args
    · rw [if_pos hnil]
      exact hargs.2.1 t' n'
    · rw [if_neg hnil]
      rcases h2 : runBody r.body args (logCall c1 r.rid).next with ⟨v0, errOut, n2⟩
      have hsame : ∀ cres : Except Err Val,
          (lookupB ({ logCall c1 r.rid with next := n2 }) t' n').map binfo =
            (lookupB c t' n').map binfo := by
        intro cres
        exact hargs.2.1 t' n'
      by_cases hout : r.numOut = 2
      · rw [if_pos hout]
        cases errOut <;> simpa using hsame (.ok v0)
      · rw [if_neg hout]
        simpa using hsame (.ok v0)

/-- C7 (amended): for a binding registered with the eager option (default
singleton lifecycle), the factory executes exactly once, synchronously,
during the `Bind` call; if eager construction fails, `Bind` fails and no
binding is stored (every key's registered resolver is unchanged).  A later
resolution never executes the factory again *provided the eager instance is
non-nil*: the cached non-nil instance is returned with no state change.  (A
nil eager instance is stored as an absent cache and the factory would run
again — see the counterexample.) -/
theorem C7_eager_runs_at_bind (fuel : Nat) (r : Resolver) (c : Container)
    (hf : r.isFunc = true) (h1 : 1 ≤ r.numOut) (h2 : r.numOut ≤ 2)
    (hself : r.outTy ∉ r.params) (hrid : r.rid ∉ ridsOf c) (hrl : c.rlock = false) :
    (∀ u c1, Bind fuel r [withEager] c = (.ok u, c1) →
      countRid r.rid c1.calls = countRid r.rid c.calls + 1 ∧
      ∃ v, lookupB c1 r.outTy "" =
          some { resolver := r, concrete := v, singleton := true, locked := false } ∧
        (v ≠ Val.nil → ∀ f2, resolveNamed (f2 + 1) r.outTy "" c1 = (.ok v, c1))) ∧
    (∀ e c1, Bind fuel r [withEager] c = (.error e, c1) →
      ∀ t' n', (lookupB c1 t' n').map binfo = (lookupB c t' n').map binfo) := by
  have heq := Bind_eager_eq fuel r c hf h1 h2 hself
  constructor
  · intro u c1 hok
    rw [heq] at hok
    rcases h0 : callResolver fuel r (ensureTy c r.outTy) with ⟨res, c2⟩
    rw [h0] at hok
    cases res with
    | error e => simp at hok
    | ok v =>
      simp only [Prod.mk.injEq, Except.ok.injEq] at hok
      obtain ⟨-, hc1⟩ := hok
      have hrid' : r.rid ∉ ridsOf (ensureTy c r.outTy) := by
        rw [ridsOf_ensureTy]
        exact hrid
      have hcount := callResolver_count_fresh fuel r (ensureTy c r.outTy) hrid' v c2 h0
      constructor
      · rw [← hc1, setBinding_calls]
        rw [hcount.1, ensureTy_calls]
      · refine ⟨v, ?_, ?_⟩
        · rw [← hc1]
          exact lookupB_setBinding_self _ _ _ _
        · intro hv f2
          have hlook1 : lookupB c1 r.outTy "" =
              some { resolver := r, concrete := v, singleton := true, locked := false } := by
            rw [← hc1]
            exact lookupB_setBinding_self _ _ _ _
          have hrl1 : c1.rlock = false := by
            rw [← hc1, setBinding_rlock, hcount.2, ensureTy_rlock, hrl]
          unfold resolveNamed
          have hlook1' : lookupB { c1 with rlock := true } r.outTy "" =
              some { resolver := r, concrete := v, singleton := true, locked := false } :=
            hlook1
          rw [hlook1']
          simp only []
          rw [resolveBinding_cached f2 r.outTy "" { c1 with rlock := true }
            { resolver := r, concrete := v, singleton := true, locked := false }
            hlook1' rfl rfl hv]
          simp only [if_neg hv]
          rw [rlock_roundtrip c1 hrl1]
  · intro e c1 herr t' n'
    rw [heq] at herr
    rcases h0 : callResolver fuel r (ensureTy c r.outTy) with ⟨res, c2⟩
    rw [h0] at herr
    cases res with
    | ok v => simp at herr
    | error e2 =>
      simp only [Prod.mk.injEq, Except.error.injEq] at herr
      obtain ⟨-, hc1⟩ := herr
      rw [← hc1]
      have := (callResolver_binfo fuel r (ensureTy c r.outTy) t' n').2
      rw [h0] at this
      simp only [] at this
      rw [this, lookupB_ensureTy]

/-- C7, counterexample: the claim says the eager factory executes exactly
once regardless of whether anything ever resolves the binding later.  For an
eager singleton whose factory returns the nil interface with a nil error,
the eager instance is stored as an absent cache, so a later `Resolve` runs
the factory a second time: two executions in total. -/
theorem C7_counterexample :
    (Bind 1 (leafNil 3 tyDb) [withEager] New).1 = .ok () ∧
    countRid 3 (Bind 1 (leafNil 3 tyDb) [withEager] New).2.calls = 1 ∧
    countRid 3 (resolve 2 tyDb (Bind 1 (leafNil 3 tyDb) [withEager] New).2).2.calls = 2 := by
  refine ⟨rfl, by decide, by decide⟩

/-- Witness for C7 (amended) on a concrete eager binding with a non-nil
instance. -/
theorem C7_eager_runs_at_bind_witness :
    countRid 9 (Bind 1 (leafMake 9 tyDb) [withEager] New).2.calls =
      countRid 9 New.calls + 1 ∧
    ∃ v, lookupB (Bind 1 (leafMake 9 tyDb) [withEager] New).2 tyDb "" =
        some { resolver := leafMake 9 tyDb, concrete := v, singleton := true,
               locked := false } ∧
      (v ≠ Val.nil → ∀ f2, resolveNamed (f2 + 1) tyDb ""
          (Bind 1 (leafMake 9 tyDb) [withEager] New).2 =
        (.ok v, (Bind 1 (leafMake 9 tyDb) [withEager] New).2)) :=
  (C7_eager_runs_at_bind 1 (leafMake 9 tyDb) New rfl (by decide) (by decide) (by decide)
    (by simp [ridsOf, New]) rfl).1 () (Bind 1 (leafMake 9 tyDb) [withEager] New).2 rfl

/-! ## Claim C2 -/

/-- A registry with a lazy-broken cycle: the factory for `a` declares a
deferred handle parameter `Lazy[b]`, the factory for `b` declares a concrete
`a` parameter (the state the two `Bind` calls of the lazy test produce). -/
def cLazyPair (a b : String) : Container :=
  { bindings :=
      [(Ty.base a, [("", { resolver := depMake 0 (Ty.lazyOf (Ty.base b)) (Ty.base a),
                           concrete := Val.nil, singleton := true, locked := false })]),
       (Ty.base b, [("", { resolver := depMake 1 (Ty.base a) (Ty.base b),
                           concrete := Val.nil, singleton := true, locked := false })])],
    next := 0, calls := [], rlock := false }

/-- C2: when a registered factory declares a parameter of the
deferred-resolution marker type `Lazy[X]`, resolving the factory's output
type does not resolve `X` at that point — a handle bound to the container
and `X` is passed as the argument instead — so two mutually dependent types
`a` (factory taking `Lazy[b]`) and `b` (factory taking concrete `a`) both
resolve: resolving `a` succeeds, embedding the handle, without ever
executing `b`'s factory; invoking the handle's `Resolve()` afterwards yields
a `b` whose embedded `a` is identical (same identity 0) to the earlier
resolved `a`. -/
theorem C2_lazy_cycle (a b : String) (hab : a ≠ b) :
    (resolve 2 (Ty.base a) (cLazyPair a b)).1 =
      .ok (Val.obj 0 (vlist [Val.lazyV (Ty.base b)])) ∧
    countRid 1 (resolve 2 (Ty.base a) (cLazyPair a b)).2.calls = 0 ∧
    (lazyResolve 2 (Ty.base b) (resolve 2 (Ty.base a) (cLazyPair a b)).2).1 =
      .ok (Val.obj 1 (vlist [Val.obj 0 (vlist [Val.lazyV (Ty.base b)])])) := by
  refine ⟨?_, ?_, ?_⟩ <;>
    simp [resolve, resolveNamed, resolveBinding, callResolverAux, resolveArgumentsAux,
      lazyResolve, cLazyPair, depMake, lookupB, lookupTy, lookupInner, isLazy, lazyArg,
      runBody, logCall, mutBinding, mutOuter, mutInner, countRid, vlist,
      Ne.symm hab, hab]

/-- Witness for C2 at the concrete types of the repository's lazy test. -/
theorem C2_lazy_cycle_witness :
    (resolve 2 (Ty.base "ServiceE") (cLazyPair "ServiceE" "ServiceF")).1 =
      .ok (Val.obj 0 (vlist [Val.lazyV (Ty.base "ServiceF")])) ∧
    countRid 1 (resolve 2 (Ty.base "ServiceE") (cLazyPair "ServiceE" "ServiceF")).2.calls = 0 ∧
    (lazyResolve 2 (Ty.base "ServiceF")
        (resolve 2 (Ty.base "ServiceE") (cLazyPair "ServiceE" "ServiceF")).2).1 =
      .ok (Val.obj 1 (vlist [Val.obj 0 (vlist [Val.lazyV (Ty.base "ServiceF")])])) :=
  C2_lazy_cycle "ServiceE" "ServiceF" (by decide)

/-! ## Claim C3 -/

/-- Every binding registered for `t` is an unlocked leaf factory building a
fresh instance (one output, no parameters). -/
def LeafInv (t : Ty) (c : Container) : Prop :=
  ∀ n b, lookupB c t n = some b →
    b.locked = false ∧ b.resolver.params = [] ∧ b.resolver.numOut = 1 ∧
    b.resolver.body = FBody.make

theorem lookupInner_isSome_of_mem (m : List (String × Binding)) (n : String)
    (h : n ∈ m.map Prod.fst) : (lookupInner m n).isSome := by
  induction m with
  | nil => simp at h
  | cons q rest ih =>
    obtain ⟨n0, b0⟩ := q
    by_cases h0 : n0 = n
    · simp [lookupInner, h0]
    · simp only [List.map_cons, List.mem_cons] at h
      rcases h with h | h
      · exact absurd h.symm h0
      · simp [lookupInner, h0, ih h]

theorem lookupB_isSome_of_mem_namesOf (c : Container) (t : Ty) (n : String)
    (h : n ∈ namesOf c t) : (lookupB c t n).isSome := by
  unfold namesOf at h
  unfold lookupB
  cases hl : lookupTy c.bindings t with
  | none => rw [hl] at h; simp at h
  | some m =>
    rw [hl] at h
    simp only [] at h ⊢
    exact lookupInner_isSome_of_mem m n h

theorem lookupB_eq_of_bindings (c' c : Container) (h : c'.bindings = c.bindings)
    (t : Ty) (n : String) : lookupB c' t n = lookupB c t n := by
  unfold lookupB
  rw [h]

/-- One step of the collection resolver on a leaf binding: it succeeds under
the binding's own policy, and both the leaf invariant and the set of present
names are preserved. -/
theorem leaf_make_step (f : Nat) (t : Ty) (n : String) (c : Container) (b : Binding)
    (hb : lookupB c t n = some b) (hinv : LeafInv t c) :
    ∃ v c1, resolveBinding (f + 1) t n c = (.ok v, c1) ∧ LeafInv t c1 ∧
      (∀ t2 n2, (lookupB c1 t2 n2).isSome = (lookupB c t2 n2).isSome) := by
  obtain ⟨hlk, hp, ho, hbody⟩ := hinv n b hb
  by_cases hsing : b.singleton = true
  · by_cases hcon : b.concrete = Val.nil
    · rw [resolveBinding_construct f t n c b hb hsing hlk hcon]
      rw [callResolverAux_leaf _ b.resolver _ hp (by omega)]
      rw [hbody]
      simp only [runBody]
      have htr : ∀ t2 n2, lookupB
          { logCall (mutBinding c t n (fun b0 => { b0 with locked := true })) b.resolver.rid
            with next := (logCall (mutBinding c t n (fun b0 => { b0 with locked := true }))
              b.resolver.rid).next + 1 } t2 n2 =
          lookupB (mutBinding c t n (fun b0 => { b0 with locked := true })) t2 n2 :=
        fun _ _ => rfl
      refine ⟨_, _, rfl, ?_, ?_⟩
      · intro n2 b2 hb2
        by_cases hn2 : n2 = n
        · subst hn2
          rw [lookupB_mutBinding_self, htr, lookupB_mutBinding_self, hb] at hb2
          simp only [Option.map] at hb2
          injection hb2 with h2
          rw [← h2]
          exact ⟨rfl, hp, ho, hbody⟩
        · rw [lookupB_mutBinding_ne _ _ _ _ _ _ (Or.inr hn2), htr,
            lookupB_mutBinding_ne _ _ _ _ _ _ (Or.inr hn2)] at hb2
          exact hinv n2 b2 hb2
      · intro t2 n2
        by_cases hkey : t2 = t ∧ n2 = n
        · obtain ⟨hk1, hk2⟩ := hkey
          subst hk1
          subst hk2
          rw [lookupB_mutBinding_self, htr, lookupB_mutBinding_self]
          cases lookupB c t2 n2 <;> rfl
        · have hor : t2 ≠ t ∨ n2 ≠ n := by
            by_cases ht : t2 = t
            · right; intro hn; exact hkey ⟨ht, hn⟩
            · left; exact ht
          rw [lookupB_mutBinding_ne _ _ _ _ _ _ hor, htr,
            lookupB_mutBinding_ne _ _ _ _ _ _ hor]
    · have hcon' : b.concrete ≠ Val.nil := hcon
      rw [resolveBinding_cached f t n c b hb hsing hlk hcon']
      exact ⟨b.concrete, c, rfl, hinv, fun _ _ => rfl⟩
  · have hsing' : b.singleton = false := by revert hsing; cases b.singleton <;> simp
    rw [resolveBinding_transient f t n c b hb hsing']
    rw [callResolverAux_leaf _ b.resolver _ hp (by omega)]
    rw [hbody]
    simp only [runBody]
    exact ⟨_, _, rfl, fun n2 b2 hb2 => hinv n2 b2 hb2, fun _ _ => rfl⟩

/-- The collection resolver succeeds on every snapshotted name and returns
one instance per name. -/
theorem resolveAllList_ok (f : Nat) (t : Ty) :
    ∀ (ns : List String) (c : Container), LeafInv t c →
      (∀ n ∈ ns, (lookupB c t n).isSome) →
      ∃ vs c', resolveAllList (f + 1) t ns c = (.ok vs, c') ∧ vs.length = ns.length := by
  intro ns
  induction ns with
  | nil =>
    intro c hinv hpres
    exact ⟨[], c, rfl, rfl⟩
  | cons n rest ih =>
    intro c hinv hpres
    have hsome := hpres n (List.mem_cons_self _ _)
    cases hb : lookupB c t n with
    | none => rw [hb] at hsome; simp at hsome
    | some b =>
      obtain ⟨v, c1, hstep, hinv1, hpres1⟩ := leaf_make_step f t n c b hb hinv
      obtain ⟨vs, c', hrest, hlen⟩ := ih c1 hinv1 (by
        intro n2 hn2
        rw [hpres1 t n2]
        exact hpres n2 (List.mem_cons_of_mem _ hn2))
      refine ⟨v :: vs, c', ?_, by simp [hlen]⟩
      simp only [resolveAllList]
      rw [hstep]
      simp only []
      rw [hrest]

/-- C3: `ResolveAll` over an abstract type with `N` registered names
(including the default name `""`) succeeds and returns exactly `N`
instances, each binding resolved independently through the resolution engine
under its own singleton/transient policy (the instance hypothesis asks each
registered binding to be a constructible leaf factory). -/
theorem C3_resolveAll_counts (f : Nat) (t : Ty) (c : Container) (hinv : LeafInv t c) :
    ∃ vs c', resolveAll (f + 1) t c = (.ok vs, c') ∧
      vs.length = (namesOf c t).length := by
  unfold resolveAll
  exact resolveAllList_ok f t (namesOf c t) c hinv
    (fun n hn => lookupB_isSome_of_mem_namesOf c t n hn)

/-- Witness for C3 on a container with two `Database` bindings (default name
and `"x"`, one singleton and one transient): two instances come back. -/
theorem C3_resolveAll_counts_witness :
    ∃ vs c', resolveAll 3 tyDb
        (Bind 1 (leafMake 1 tyDb) [withName "x", withTransient]
          (Bind 1 (leafMake 0 tyDb) [] New).2).2 = (.ok vs, c') ∧
      vs.length = (namesOf (Bind 1 (leafMake 1 tyDb) [withName "x", withTransient]
          (Bind 1 (leafMake 0 tyDb) [] New).2).2 tyDb).length :=
  C3_resolveAll_counts 2 tyDb _ (by
    intro n b hb
    revert hb
    rw [show (Bind 1 (leafMake 1 tyDb) [withName "x", withTransient]
        (Bind 1 (leafMake 0 tyDb) [] New).2).2 = Container.mk
        [(tyDb, [("", Binding.mk (leafMake 0 tyDb) Val.nil true false),
                 ("x", Binding.mk (leafMake 1 tyDb) Val.nil false false)])] 0 [] false
      from rfl]
    intro hb
    by_cases h0 : n = ""
    · subst h0
      simp [lookupB, lookupTy, lookupInner] at hb
      rw [← hb]
      exact ⟨rfl, rfl, rfl, rfl⟩
    · by_cases h1 : n = "x"
      · subst h1
        simp [lookupB, lookupTy, lookupInner] at hb
        rw [← hb]
        exact ⟨rfl, rfl, rfl, rfl⟩
      · simp [lookupB, lookupTy, lookupInner, Ne.symm h0, Ne.symm h1] at hb)

end Yadi
